import Mathlib

/-!
Shallow embedding of the `tts-tiny-dataset` repository
(`src/scripts/pack.py` and `src/scripts/unpack.py`).

Strings are modelled as `List Char` (`Str`).  A metadata row keeps the three
required columns; passthrough columns play no role in any claim.  The
filesystem is modelled explicitly: the flat source's `wavs/` directory is the
list of file names it contains, and the partitioned output's `audio/` tree is
an association list from sanitized `(audio_source, speaker)` pairs to the
directory entries of that speaker directory.
-/

set_option maxRecDepth 10000

abbrev Str := List Char

def str (s : String) : Str := s.toList

/-- One row of a metadata table (`audio_path`, `speaker`, `audio_source`). -/
structure Row where
  audio_path : Str
  speaker : Str
  audio_source : Str
deriving DecidableEq, Repr

/-- `str.strip()` (whitespace removed from both ends). -/
def pyStrip (s : Str) : Str :=
  ((s.dropWhile Char.isWhitespace).reverse.dropWhile Char.isWhitespace).reverse

/-- `str.lower()` (per-character lowercasing). -/
def pyLower (s : Str) : Str := s.map Char.toLower

/-- `str.replace(a, b)` for single characters. -/
def replaceChar (a b : Char) (s : Str) : Str :=
  s.map (fun c => if c = a then b else c)

/-- `pack.py` `sanitise`: strip, lower, spaces to `_`, slashes to `-`. -/
def sanitise (s : Str) : Str :=
  replaceChar '/' '-' (replaceChar ' ' '_' (pyLower (pyStrip s)))

/-- `s.split(sep)` for a single-character separator (Python semantics:
the result is always nonempty; `"".split(c) = [""]`). -/
def splitOnChar (sep : Char) : Str → List Str
  | [] => [[]]
  | c :: cs =>
    if c = sep then [] :: splitOnChar sep cs
    else
      match splitOnChar sep cs with
      | [] => [[c]]
      | h :: t => (c :: h) :: t

/-- `xs[-1]` with a default (the lists we index are never empty). -/
def lastD (l : List Str) : Str := l.getLastD []

/-- Is `p` a prefix of `s` (`str.startswith`)? -/
def strStarts : Str → Str → Bool
  | [], _ => true
  | _ :: _, [] => false
  | a :: p, b :: s => a = b && strStarts p s

/-- Python `pat in s` substring test. -/
def strContains (pat : Str) : Str → Bool
  | [] => strStarts pat []
  | c :: rest => strStarts pat (c :: rest) || strContains pat rest

/-- Numeric value of a digit string (most significant first). -/
def digitsVal (ds : Str) : Nat :=
  ds.foldl (fun a c => a * 10 + (c.toNat - ('0').toNat)) 0

/-- Python `int(s)`: strip whitespace, optional sign, then decimal digits;
`none` models the `ValueError` branch. -/
def pyIntOpt (s : Str) : Option Int :=
  match pyStrip s with
  | '+' :: ds =>
    if ds ≠ [] ∧ ds.all Char.isDigit then some (digitsVal ds) else none
  | '-' :: ds =>
    if ds ≠ [] ∧ ds.all Char.isDigit then some (-(digitsVal ds : Nat)) else none
  | ds =>
    if ds ≠ [] ∧ ds.all Char.isDigit then some (digitsVal ds) else none

/-- One entry of a directory listing (`Path.iterdir` + `is_dir`). -/
structure DirEntry where
  name : Str
  isDir : Bool
deriving DecidableEq, Repr

/-- `pack.py` `get_next_batch_num`, over the listing of
`output/audio/<source>/<speaker>/` (`none` = the directory does not exist).
`max(max_num, num)` with `max_num ≥ 0` is modelled by `max m n.toNat`
(a negative parsed number never wins against a natural accumulator). -/
def getNextBatchNum (entries : Option (List DirEntry)) : Nat :=
  match entries with
  | none => 1
  | some es =>
    (es.foldl
      (fun m e =>
        if e.isDir && strStarts (str "batch_") e.name then
          match pyIntOpt (lastD (splitOnChar '_' e.name)) with
          | some n => max m n.toNat
          | none => m
        else m)
      0) + 1

/-- Decimal digits, fuel-based so that it reduces by evaluation. -/
def natDigitsAux : Nat → Nat → Str
  | 0, _ => []
  | fuel + 1, n =>
    if n < 10 then [Char.ofNat (('0').toNat + n)]
    else natDigitsAux fuel (n / 10) ++ [Char.ofNat (('0').toNat + n % 10)]

/-- Decimal digits of `n`, most significant first, no leading zeros
(`"0"` for zero). -/
def natDigits (n : Nat) : Str := natDigitsAux (n + 1) n

/-- `f"{n:04d}"` for a natural number: pad with zeros to width 4. -/
def pad4 (n : Nat) : Str :=
  let ds := natDigits n
  List.replicate (4 - ds.length) '0' ++ ds

/-- The auto-generated batch label `f"batch_{n:04d}"`. -/
def batchLabel (n : Nat) : Str := str "batch_" ++ pad4 n

/-- `Path(p).name`: the last nonempty, non-`"."` `/`-separated component. -/
def pathName (s : Str) : Str :=
  ((splitOnChar '/' s).filter (fun c => decide (c ≠ [] ∧ c ≠ ['.']))).getLastD []

example : sanitise (str "  My Source/X ") = str "my_source-x" := by decide
example : pyIntOpt (str "0012") = some 12 := by decide
example : pyIntOpt (str "x2") = none := by decide
example : getNextBatchNum none = 1 := by decide
example : getNextBatchNum (some [⟨str "batch_0007", true⟩, ⟨str "misc", true⟩]) = 8 := by decide
example : getNextBatchNum (some [⟨str "batch_0007", false⟩]) = 1 := by decide
example : getNextBatchNum (some [⟨str "batch_2026_01", true⟩]) = 2 := by decide
example : batchLabel 12 = str "batch_0012" := by decide
example : pathName (str "audio/src/spk/batch_0001/f.wav") = str "f.wav" := by decide
example : pathName (str "wavs/f.wav") = str "f.wav" := by decide
example : strContains (str "/batch_0002/") (str "audio/y/s/batch_0020/f.wav") = false := by decide

/-! ## The pack pipeline (`pack.py`) -/

/-- The `groupby(["audio_source", "speaker"])` key of a row. -/
def rowKey (r : Row) : Str × Str := (r.audio_source, r.speaker)

/-- Lexicographic comparison of strings by code point (Python `<`). -/
def strLt : Str → Str → Bool
  | [], [] => false
  | [], _ :: _ => true
  | _ :: _, [] => false
  | a :: as, b :: bs =>
    if a.toNat < b.toNat then true else if a = b then strLt as bs else false

/-- Python tuple `≤` on `(audio_source, speaker)` keys. -/
def keyLe (x y : Str × Str) : Bool :=
  if x.1 = y.1 then decide (x.2 = y.2) || strLt x.2 y.2 else strLt x.1 y.1

def insertKey (k : Str × Str) : List (Str × Str) → List (Str × Str)
  | [] => [k]
  | x :: xs => if keyLe k x then k :: x :: xs else x :: insertKey k xs

/-- Sorted group keys, as `groupby` (default `sort=True`) produces them. -/
def sortKeys (l : List (Str × Str)) : List (Str × Str) := l.foldr insertKey []

/-- The distinct group keys of a table, in `groupby` order. -/
def groupKeys (df : List Row) : List (Str × Str) := sortKeys (df.map rowKey).dedup

/-- `[group_df[i:i+max_rows] for i in range(0, len(group_df), max_rows)]`,
fuel-based so that it evaluates.  `pack.py` only reaches this with the
CLI's positive `--max-rows`; Python raises `ValueError` for a zero step. -/
def chunksOfAux (n : Nat) : Nat → List Row → List (List Row)
  | 0, _ => []
  | _, [] => []
  | fuel + 1, x :: xs => ((x :: xs).take n) :: chunksOfAux n fuel ((x :: xs).drop n)

def chunksOf (n : Nat) (l : List Row) : List (List Row) := chunksOfAux n l.length l

/-- The output `audio/` tree: sanitized `(source, speaker)` pair to the
listing of that speaker directory (absent pair = directory does not exist). -/
abbrev FsTree := List ((Str × Str) × List DirEntry)

def treeGet (t : FsTree) (k : Str × Str) : Option (List DirEntry) :=
  match t.find? (fun p => decide (p.1 = k)) with
  | some p => some p.2
  | none => none

/-- `mkdir(exist_ok=True)`: add a directory entry unless the name exists. -/
def addDirEntry (es : List DirEntry) (label : Str) : List DirEntry :=
  if es.any (fun e => decide (e.name = label)) then es else es ++ [⟨label, true⟩]

def treeAddDir (t : FsTree) (k : Str × Str) (label : Str) : FsTree :=
  match t with
  | [] => [(k, [⟨label, true⟩])]
  | (k', es) :: rest =>
    if k' = k then (k', addDirEntry es label) :: rest
    else (k', es) :: treeAddDir rest k label

/-- `f"audio/{audio_source}/{speaker}/{current_batch}/{wav_filename}"`. -/
def relPath (sanSrc sanSpk label fname : Str) : Str :=
  str "audio/" ++ sanSrc ++ [ '/' ] ++ sanSpk ++ [ '/' ] ++ label ++ [ '/' ] ++ fname

/-- `f"{audio_source}_{speaker}_{current_batch}.parquet"`. -/
def shardName (sanSrc sanSpk label : Str) : Str :=
  sanSrc ++ [ '_' ] ++ sanSpk ++ [ '_' ] ++ label ++ str ".parquet"

/-- Per-chunk result of the row loop of `pack`:
rewritten rows, planned `{source → destination}` copy pairs, the `moved`
and `skipped` counters. -/
structure ChunkOut where
  rows : List Row
  copies : List (Str × Str)
  moved : Nat
  skipped : Nat
deriving DecidableEq, Repr

/-- The row loop of `pack` over one chunk (`wavs` is the listing of the
source's `wavs/` directory; membership is `src_file.exists()`). -/
def packChunkCore (dryRun : Bool) (wavs : List Str) (sanSrc sanSpk label : Str) :
    List Row → ChunkOut
  | [] => ⟨[], [], 0, 0⟩
  | r :: rs =>
    let rest := packChunkCore dryRun wavs sanSrc sanSpk label rs
    let fname := pathName r.audio_path
    if fname ∈ wavs then
      let rel := relPath sanSrc sanSpk label fname
      ⟨{ r with audio_path := rel } :: rest.rows, (fname, rel) :: rest.copies,
        (if dryRun then 0 else 1) + rest.moved, rest.skipped⟩
    else
      ⟨r :: rest.rows, rest.copies, rest.moved, rest.skipped + 1⟩

/-- `current_batch`: the explicit label if given, else `batch_{start+idx:04d}`. -/
def labelFor (exactBatch : Option Str) (startNum idx : Nat) : Str :=
  match exactBatch with
  | some b => b
  | none => batchLabel (startNum + idx)

/-- Whole-run result of `pack`: metadata shards (file name, rows), copy
pairs, a trace of the batch numbers assigned per sanitized group, the two
counters, and the output `audio/` tree after the run. -/
structure PackOut where
  shards : List (Str × List Row)
  copies : List (Str × Str)
  batches : List ((Str × Str) × Nat)
  moved : Nat
  skipped : Nat
  tree : FsTree
deriving DecidableEq, Repr

/-- The chunk loop of `pack` for one group.  In a real run `mkdir` runs
before every copy; it is idempotent, so the tree gains the batch directory
exactly when the chunk copies at least one file. -/
def packChunks (dryRun : Bool) (wavs : List Str) (exactBatch : Option Str)
    (sanSrc sanSpk : Str) (startNum : Nat) :
    Nat → List (List Row) → FsTree → PackOut
  | _, [], tree => ⟨[], [], [], 0, 0, tree⟩
  | idx, ch :: chs, tree =>
    let label := labelFor exactBatch startNum idx
    let c := packChunkCore dryRun wavs sanSrc sanSpk label ch
    let tree' :=
      if dryRun || c.copies.isEmpty then tree
      else treeAddDir tree (sanSrc, sanSpk) label
    let rest := packChunks dryRun wavs exactBatch sanSrc sanSpk startNum (idx + 1) chs tree'
    ⟨(shardName sanSrc sanSpk label, c.rows) :: rest.shards,
      c.copies ++ rest.copies,
      ((sanSrc, sanSpk), startNum + idx) :: rest.batches,
      c.moved + rest.moved, c.skipped + rest.skipped, rest.tree⟩

/-- One iteration of `pack`'s group loop. -/
def processGroup (dryRun : Bool) (wavs : List Str) (exactBatch : Option Str)
    (maxRows : Nat) (rawKey : Str × Str) (rows : List Row) (tree : FsTree) : PackOut :=
  let sanSrc := sanitise rawKey.1
  let sanSpk := sanitise rawKey.2
  let chunks :=
    match exactBatch with
    | some _ => [rows]
    | none => chunksOf maxRows rows
  let startNum :=
    match exactBatch with
    | some _ => 0
    | none => getNextBatchNum (treeGet tree (sanSrc, sanSpk))
  packChunks dryRun wavs exactBatch sanSrc sanSpk startNum 0 chunks tree

/-- `pack`'s group loop over a list of group keys. -/
def packGroups (dryRun : Bool) (wavs : List Str) (exactBatch : Option Str)
    (maxRows : Nat) (df : List Row) : List (Str × Str) → FsTree → PackOut
  | [], tree => ⟨[], [], [], 0, 0, tree⟩
  | k :: ks, tree =>
    let g := processGroup dryRun wavs exactBatch maxRows k
      (df.filter (fun r => decide (rowKey r = k))) tree
    let rest := packGroups dryRun wavs exactBatch maxRows df ks g.tree
    ⟨g.shards ++ rest.shards, g.copies ++ rest.copies, g.batches ++ rest.batches,
      g.moved + rest.moved, g.skipped + rest.skipped, rest.tree⟩

/-- The core of `pack` (after the pre-flight checks). -/
def packRun (dryRun : Bool) (wavs : List Str) (exactBatch : Option Str)
    (maxRows : Nat) (tree : FsTree) (df : List Row) : PackOut :=
  packGroups dryRun wavs exactBatch maxRows df (groupKeys df) tree

/-! ## The unpack pipeline (`unpack.py`) -/

/-- Python truthiness of an optional string argument (`if speaker:`):
`None` and the empty string are both falsy. -/
def optGiven : Option Str → Bool
  | none => false
  | some s => !s.isEmpty

/-- `unpack.py` `apply_filters` (its empty-result exit is modelled at the
pipeline level, where control flow continues). -/
def applyFilters (speaker audio_source batch : Option Str) (df : List Row) : List Row :=
  let d1 :=
    if optGiven speaker then
      df.filter (fun r => decide (pyLower r.speaker = pyLower (speaker.getD [])))
    else df
  let d2 :=
    if optGiven audio_source then
      d1.filter (fun r => decide (pyLower r.audio_source = pyLower (audio_source.getD [])))
    else d1
  if optGiven batch then
    d2.filter (fun r => strContains ([ '/' ] ++ batch.getD [] ++ [ '/' ]) r.audio_path)
  else d2

/-- Result of `unpack`'s row loop: rewritten rows, planned copy pairs, the
`copied` and `missing` counters. -/
structure UnpackOut where
  rows : List Row
  copies : List (Str × Str)
  copied : Nat
  missing : Nat
deriving DecidableEq, Repr

/-- The row loop of `unpack` (`files` is the set of partitioned audio paths
that exist under the dataset root; the flat path is recorded before the
existence check, exactly as in the source). -/
def unpackCore (dryRun : Bool) (files : List Str) : List Row → UnpackOut
  | [] => ⟨[], [], 0, 0⟩
  | r :: rs =>
    let rest := unpackCore dryRun files rs
    let fname := pathName r.audio_path
    let flat := str "wavs/" ++ fname
    let newRow := { r with audio_path := flat }
    if r.audio_path ∈ files then
      ⟨newRow :: rest.rows, (r.audio_path, flat) :: rest.copies,
        (if dryRun then 0 else 1) + rest.copied, rest.missing⟩
    else
      ⟨newRow :: rest.rows, rest.copies, rest.copied, rest.missing + 1⟩

/-! ## Top-level control flow, errors and filesystem mutations -/

/-- The fatal error taxonomy (`sys.exit` sites). -/
inductive Err where
  | configErr
  | schemaErr
  | noMatch
deriving DecidableEq, Repr

/-- A filesystem mutation performed by a run. -/
inductive Mut where
  | mkdirDir (p : Str)
  | copyFile (src dst : Str)
  | writeFile (p : Str)
deriving DecidableEq, Repr

def requiredCols : List Str := [str "audio_path", str "speaker", str "audio_source"]

/-- `pack.py` `load_metadata`: the flat source's `metadata.csv` is either
absent (`none`) or a header plus parsed rows; missing required columns are
fatal. -/
def loadMetadata (metaCsv : Option (List Str × List Row)) : Except Err (List Row) :=
  match metaCsv with
  | none => .error .configErr
  | some (cols, rows) =>
    if requiredCols.all (fun c => decide (c ∈ cols)) then .ok rows
    else .error .schemaErr

/-- `pack` with its pre-flight checks (`load_metadata`, then the `wavs/`
directory check), in source order; all checks precede the group loop. -/
def packTop (dryRun : Bool) (wavs : List Str) (exactBatch : Option Str)
    (maxRows : Nat) (tree : FsTree) (metaCsv : Option (List Str × List Row))
    (wavsDirOk : Bool) : Except Err PackOut :=
  match loadMetadata metaCsv with
  | .error e => .error e
  | .ok df =>
    if wavsDirOk then .ok (packRun dryRun wavs exactBatch maxRows tree df)
    else .error .configErr

/-- The filesystem mutations of a `pack` invocation: none on a fatal error
or in dry-run mode; otherwise the `metadata/` mkdir, the per-batch
directories with their file copies, and the per-batch shard writes. -/
def packTopMuts (dryRun : Bool) (wavs : List Str) (exactBatch : Option Str)
    (maxRows : Nat) (tree : FsTree) (metaCsv : Option (List Str × List Row))
    (wavsDirOk : Bool) : List Mut :=
  match packTop dryRun wavs exactBatch maxRows tree metaCsv wavsDirOk with
  | .error _ => []
  | .ok res =>
    if dryRun then []
    else
      Mut.mkdirDir (str "metadata") ::
        (res.copies.map (fun c => Mut.copyFile c.1 c.2) ++
          res.shards.map (fun s => Mut.writeFile s.1))

/-- `unpack` with its pre-flight checks in source order: the `metadata/`
directory check, the no-shards check in `load_all_metadata`, concatenation,
then `apply_filters` with its empty-result exit. -/
def unpackTop (dryRun : Bool) (files : List Str) (metaDirOk : Bool)
    (shards : List (List Row)) (speaker audio_source batch : Option Str) :
    Except Err UnpackOut :=
  if metaDirOk then
    if shards = [] then .error .configErr
    else
      let df := shards.flatten
      let filtered := applyFilters speaker audio_source batch df
      if filtered = [] then .error .noMatch
      else .ok (unpackCore dryRun files filtered)
  else .error .configErr

/-- The filesystem mutations of an `unpack` invocation: none on a fatal
error or in dry-run mode; otherwise the `wavs/` mkdirs with the copies,
then the output-directory mkdir and the flat `metadata.csv` write. -/
def unpackTopMuts (dryRun : Bool) (files : List Str) (metaDirOk : Bool)
    (shards : List (List Row)) (speaker audio_source batch : Option Str) : List Mut :=
  match unpackTop dryRun files metaDirOk shards speaker audio_source batch with
  | .error _ => []
  | .ok res =>
    if dryRun then []
    else
      res.copies.map (fun c => Mut.copyFile c.1 c.2) ++
        [Mut.mkdirDir [], Mut.writeFile (str "metadata.csv")]

example :
    applyFilters (some (str "Somrat")) none none
      [⟨str "wavs/a.wav", str "somrat", str "yt"⟩, ⟨str "wavs/b.wav", str "x", str "yt"⟩]
      = [⟨str "wavs/a.wav", str "somrat", str "yt"⟩] := by decide

example :
    (packRun false [str "a.wav", str "b.wav"] none 10 []
      [⟨str "wavs/a.wav", str "s", str "yt"⟩, ⟨str "wavs/b.wav", str "s", str "yt"⟩]).shards
      = [(str "yt_s_batch_0001.parquet",
          [⟨str "audio/yt/s/batch_0001/a.wav", str "s", str "yt"⟩,
           ⟨str "audio/yt/s/batch_0001/b.wav", str "s", str "yt"⟩])] := by decide

example :
    (packRun false [str "a.wav", str "b.wav"] none 1 []
      [⟨str "wavs/a.wav", str "s", str "yt"⟩, ⟨str "wavs/b.wav", str "s", str "yt"⟩]).batches
      = [((str "yt", str "s"), 1), ((str "yt", str "s"), 2)] := by decide

example :
    (packRun false [] none 10 [] [⟨str "wavs/a.wav", str "s", str "yt"⟩]).tree = [] := by decide

example :
    (unpackCore false [str "audio/yt/s/batch_0001/a.wav"]
      [⟨str "audio/yt/s/batch_0001/a.wav", str "s", str "yt"⟩]).rows
      = [⟨str "wavs/a.wav", str "s", str "yt"⟩] := by decide

/-! ## Basic lemmas about the string primitives -/

theorem strStarts_append (p s : Str) : strStarts p (p ++ s) = true := by
  induction p with
  | nil => rfl
  | cons a q ih => simp [strStarts, ih]

theorem splitOnChar_ne_nil (c : Char) (s : Str) : splitOnChar c s ≠ [] := by
  cases s with
  | nil => simp [splitOnChar]
  | cons a as =>
    simp only [splitOnChar]
    split
    · simp
    · split <;> simp

theorem splitOnChar_append (c : Char) (xs ys : Str) :
    splitOnChar c (xs ++ c :: ys) = splitOnChar c xs ++ splitOnChar c ys := by
  induction xs with
  | nil => simp [splitOnChar]
  | cons a as ih =>
    by_cases h : a = c
    · subst h
      simp [splitOnChar, ih]
    · simp only [List.cons_append, splitOnChar, if_neg h]
      cases hs : splitOnChar c as with
      | nil => exact absurd hs (splitOnChar_ne_nil c as)
      | cons hd tl => simp only [List.append_eq]; rw [ih, hs]; simp

theorem splitOnChar_of_not_mem {c : Char} {s : Str} (h : c ∉ s) :
    splitOnChar c s = [s] := by
  induction s with
  | nil => rfl
  | cons a as ih =>
    have hac : a ≠ c := fun e => h (e ▸ List.mem_cons_self a as)
    have has : c ∉ as := fun e => h (List.mem_cons_of_mem a e)
    simp only [splitOnChar, if_neg hac, ih has]

theorem not_mem_of_mem_splitOnChar {c : Char} {s x : Str}
    (hx : x ∈ splitOnChar c s) : c ∉ x := by
  induction s generalizing x with
  | nil =>
    simp only [splitOnChar, List.mem_singleton] at hx
    subst hx; simp
  | cons a as ih =>
    simp only [splitOnChar] at hx
    split at hx
    · rcases List.mem_cons.1 hx with h | h
      · subst h; simp
      · exact ih h
    · rename_i hac
      cases hs : splitOnChar c as with
      | nil => exact absurd hs (splitOnChar_ne_nil c as)
      | cons hd tl =>
        rw [hs] at hx
        rcases List.mem_cons.1 hx with h | h
        · subst h
          intro hc
          rcases List.mem_cons.1 hc with h' | h'
          · exact hac h'.symm
          · exact ih (hs ▸ List.mem_cons_self hd tl) h'
        · exact ih (hs ▸ List.mem_cons_of_mem hd h)

theorem getLastD_cases (l : List Str) : lastD l = [] ∨ lastD l ∈ l := by
  unfold lastD
  induction l with
  | nil => left; rfl
  | cons x xs ih =>
    rw [List.getLastD_cons]
    rcases xs with _ | ⟨y, ys⟩
    · right; simp [List.getLastD]
    · rcases ih with h | h
      · rw [List.getLastD_cons] at h ⊢
        left; exact h
      · rw [List.getLastD_cons] at h ⊢
        right; exact List.mem_cons_of_mem x h

theorem getLastD_append_singleton (A : List Str) (x : Str) :
    lastD (A ++ [x]) = x := by
  unfold lastD
  induction A with
  | nil => rfl
  | cons a as ih => rw [List.cons_append, List.getLastD_cons]; simp [lastD]

/-! ## Lemmas about digits, padding and integer parsing -/

theorem digitCharVal {d : Nat} (hd : d < 10) :
    (Char.ofNat (('0').toNat + d)).toNat = ('0').toNat + d ∧
      (Char.ofNat (('0').toNat + d)).isDigit = true := by
  interval_cases d <;> exact ⟨by decide, by decide⟩

theorem digitsVal_append_singleton (xs : Str) (c : Char) :
    digitsVal (xs ++ [c]) = digitsVal xs * 10 + (c.toNat - ('0').toNat) := by
  unfold digitsVal
  rw [List.foldl_append]
  rfl

theorem natDigitsAux_spec :
    ∀ fuel n, n < fuel →
      digitsVal (natDigitsAux fuel n) = n ∧ natDigitsAux fuel n ≠ [] ∧
        ∀ c ∈ natDigitsAux fuel n, c.isDigit = true := by
  intro fuel
  induction fuel with
  | zero => intro n hn; omega
  | succ f ih =>
    intro n hn
    by_cases h : n < 10
    · refine ⟨?_, ?_, ?_⟩
      · simp only [natDigitsAux, if_pos h]
        unfold digitsVal
        have h1 := (digitCharVal h).1
        simp only [List.foldl_cons, List.foldl_nil]
        omega
      · simp [natDigitsAux, h]
      · intro c hc
        simp only [natDigitsAux, if_pos h, List.mem_singleton] at hc
        subst hc
        exact (digitCharVal h).2
    · have hdiv : n / 10 < f := by
        have h1 : n / 10 < n := Nat.div_lt_self (by omega) (by omega)
        omega
      obtain ⟨ihv, ihne, ihd⟩ := ih (n / 10) hdiv
      have hmod : n % 10 < 10 := Nat.mod_lt _ (by omega)
      have hchar := digitCharVal hmod
      refine ⟨?_, ?_, ?_⟩
      · simp only [natDigitsAux, if_neg h]
        rw [digitsVal_append_singleton, ihv]
        have h1 := hchar.1
        omega
      · simp [natDigitsAux, h]
      · intro c hc
        simp only [natDigitsAux, if_neg h, List.mem_append, List.mem_singleton] at hc
        rcases hc with hc | hc
        · exact ihd c hc
        · subst hc; exact hchar.2

theorem natDigits_spec (n : Nat) :
    digitsVal (natDigits n) = n ∧ natDigits n ≠ [] ∧
      ∀ c ∈ natDigits n, c.isDigit = true :=
  natDigitsAux_spec (n + 1) n (Nat.lt_succ_self n)

theorem pad4_spec (n : Nat) :
    digitsVal (pad4 n) = n ∧ pad4 n ≠ [] ∧ ∀ c ∈ pad4 n, c.isDigit = true := by
  obtain ⟨hv, hne, hd⟩ := natDigits_spec n
  unfold pad4
  refine ⟨?_, ?_, ?_⟩
  · show digitsVal (List.replicate (4 - (natDigits n).length) '0' ++ natDigits n) = n
    generalize 4 - (natDigits n).length = k
    induction k with
    | zero => simpa using hv
    | succ m ihm =>
      rw [List.replicate_succ, List.cons_append]
      unfold digitsVal at ihm ⊢
      simpa using ihm
  · simp [hne]
  · intro c hc
    simp only [List.mem_append, List.mem_replicate] at hc
    rcases hc with hc | hc
    · rw [hc.2]; decide
    · exact hd c hc

theorem digit_not_ws {c : Char} (h : c.isDigit = true) : c.isWhitespace = false := by
  by_contra hw
  rw [Bool.not_eq_false] at hw
  simp only [Char.isWhitespace, Bool.or_eq_true, decide_eq_true_eq] at hw
  rcases hw with ((hc | hc) | hc) | hc <;> (subst hc; exact absurd h (by decide))

theorem dropWhile_ws_of_digits {s : Str} (h : ∀ c ∈ s, c.isDigit = true) :
    s.dropWhile Char.isWhitespace = s := by
  cases s with
  | nil => rfl
  | cons a as =>
    rw [List.dropWhile_cons_of_neg]
    rw [digit_not_ws (h a (List.mem_cons_self a as))]
    simp

theorem pyStrip_of_digits {s : Str} (h : ∀ c ∈ s, c.isDigit = true) :
    pyStrip s = s := by
  unfold pyStrip
  rw [dropWhile_ws_of_digits h, dropWhile_ws_of_digits, List.reverse_reverse]
  intro c hc
  exact h c (List.mem_reverse.1 hc)

theorem isDigit_ne_plus {c : Char} (h : c.isDigit = true) : c ≠ '+' := by
  intro e; subst e; simp_all

theorem isDigit_ne_minus {c : Char} (h : c.isDigit = true) : c ≠ '-' := by
  intro e; subst e; simp_all

theorem pyIntOpt_of_digits {s : Str} (hne : s ≠ [])
    (h : ∀ c ∈ s, c.isDigit = true) : pyIntOpt s = some ((digitsVal s : Nat) : Int) := by
  unfold pyIntOpt
  rw [pyStrip_of_digits h]
  split
  · exact absurd (h '+' (List.mem_cons_self _ _)) (by decide)
  · exact absurd (h '-' (List.mem_cons_self _ _)) (by decide)
  · rw [if_pos ⟨hne, List.all_eq_true.2 h⟩]

/-! ## Analysis of `get_next_batch_num` -/

/-- The number a directory entry contributes to the batch-number scan:
directories whose name starts with `batch_` and whose final `_`-separated
token parses as an integer (negative values clamp to `0`, matching
`max(max_num, num)` against a non-negative accumulator). -/
def entryContrib (e : DirEntry) : Option Nat :=
  if e.isDir && strStarts (str "batch_") e.name then
    match pyIntOpt (lastD (splitOnChar '_' e.name)) with
    | some n => some n.toNat
    | none => none
  else none

def listMax (l : List Nat) : Nat := l.foldr max 0

theorem listMax_append (a b : List Nat) :
    listMax (a ++ b) = max (listMax a) (listMax b) := by
  unfold listMax
  induction a with
  | nil => simp
  | cons x xs ih => simp [ih, Nat.max_assoc]

theorem le_listMax_of_mem {n : Nat} {l : List Nat} (h : n ∈ l) : n ≤ listMax l := by
  unfold listMax
  induction l with
  | nil => cases h
  | cons x xs ih =>
    rcases List.mem_cons.1 h with h | h
    · subst h; simp
    · simp only [List.foldr_cons]
      exact le_trans (ih h) (Nat.le_max_right _ _)

theorem getNextBatchNum_some (es : List DirEntry) :
    getNextBatchNum (some es) = listMax (es.filterMap entryContrib) + 1 := by
  have hfun : (fun (m : Nat) (e : DirEntry) =>
      if e.isDir && strStarts (str "batch_") e.name then
        match pyIntOpt (lastD (splitOnChar '_' e.name)) with
        | some n => max m n.toNat
        | none => m
      else m) =
      (fun (m : Nat) (e : DirEntry) =>
        match entryContrib e with
        | some v => max m v
        | none => m) := by
    funext m e
    by_cases hc : (e.isDir && strStarts (str "batch_") e.name) = true
    · rcases hp : pyIntOpt (lastD (splitOnChar '_' e.name)) with _ | n
      · simp [entryContrib, hc, hp]
      · simp [entryContrib, hc, hp]
    · simp [entryContrib, hc]
  have key : ∀ (l : List DirEntry) (m : Nat),
      (l.foldl
        (fun (m : Nat) (e : DirEntry) =>
          match entryContrib e with
          | some v => max m v
          | none => m)
        m) = max m (listMax (l.filterMap entryContrib)) := by
    intro l
    induction l with
    | nil => intro m; simp [listMax]
    | cons e l ih =>
      intro m
      rw [List.foldl_cons, List.filterMap_cons]
      rcases hce : entryContrib e with _ | v
      · simp only [hce, ih]
      · simp only [hce, ih]
        unfold listMax
        simp [Nat.max_assoc]
  show (es.foldl _ 0) + 1 = _
  rw [hfun, key]
  simp

theorem entryContrib_batchLabel (n : Nat) :
    entryContrib ⟨batchLabel n, true⟩ = some n := by
  have hdig := (pad4_spec n).2.2
  have hund : '_' ∉ pad4 n := by
    intro hm
    exact absurd (hdig '_' hm) (by decide)
  have heq : batchLabel n = str "batch" ++ '_' :: pad4 n := rfl
  have hsplit : splitOnChar '_' (batchLabel n) = [str "batch", pad4 n] := by
    rw [heq, splitOnChar_append, splitOnChar_of_not_mem hund]
    rfl
  unfold entryContrib
  rw [if_pos]
  · show (match pyIntOpt (lastD (splitOnChar '_' (batchLabel n))) with
      | some n => some n.toNat
      | none => none) = some n
    rw [hsplit, show lastD [str "batch", pad4 n] = pad4 n from
      getLastD_append_singleton [str "batch"] (pad4 n)]
    rw [pyIntOpt_of_digits (pad4_spec n).2.1 hdig]
    simp [(pad4_spec n).1]
  · show ((true : Bool) && strStarts (str "batch_") (batchLabel n)) = true
    rw [show batchLabel n = str "batch_" ++ pad4 n from rfl, strStarts_append]
    rfl

/-! ## The output tree: lookup, directory creation, batch numbering -/

/-- Sanitized partition key of a raw `(audio_source, speaker)` pair. -/
def sanKey (k : Str × Str) : Str × Str := (sanitise k.1, sanitise k.2)

/-- The batch number the next auto batch of partition `q` would get. -/
def nextNum (t : FsTree) (q : Str × Str) : Nat := getNextBatchNum (treeGet t q)

/-- A well-formed output tree: every recorded entry is a directory (the
`audio/` tree only ever receives `mkdir`s). -/
def GoodFsTree (t : FsTree) : Prop :=
  ∀ k es, treeGet t k = some es → ∀ e ∈ es, e.isDir = true

theorem goodFsTree_nil : GoodFsTree [] := by
  intro k es h
  simp [treeGet, List.find?] at h

theorem treeGet_addDir_ne {t : FsTree} {k k' : Str × Str} {l : Str}
    (h : k' ≠ k) : treeGet (treeAddDir t k' l) k = treeGet t k := by
  induction t with
  | nil =>
    simp [treeAddDir, treeGet, List.find?, decide_eq_true_eq, h]
  | cons p rest ih =>
    obtain ⟨k0, es⟩ := p
    by_cases h0 : k0 = k'
    · subst h0
      simp [treeAddDir, treeGet, List.find?, decide_eq_true_eq, h]
    · simp only [treeAddDir, if_neg h0]
      by_cases hk : k0 = k
      · subst hk
        simp [treeGet, List.find?]
      · simp only [treeGet, List.find?] at ih ⊢
        rw [show (decide (k0 = k)) = false by simp [hk]]
        exact ih

theorem treeGet_addDir_eq (t : FsTree) (k : Str × Str) (l : Str) :
    treeGet (treeAddDir t k l) k =
      some (match treeGet t k with
        | some es => addDirEntry es l
        | none => [⟨l, true⟩]) := by
  induction t with
  | nil => simp [treeAddDir, treeGet, List.find?]
  | cons p rest ih =>
    obtain ⟨k0, es⟩ := p
    by_cases h0 : k0 = k
    · subst h0
      simp [treeAddDir, treeGet, List.find?]
    · simp only [treeAddDir, if_neg h0]
      simp only [treeGet, List.find?] at ih ⊢
      rw [show (decide (k0 = k)) = false by simp [h0]]
      exact ih

theorem goodFsTree_addDir {t : FsTree} {k : Str × Str} {l : Str}
    (hg : GoodFsTree t) : GoodFsTree (treeAddDir t k l) := by
  intro k' es' hget e he
  by_cases hk : k = k'
  · subst hk
    rw [treeGet_addDir_eq] at hget
    rcases hte : treeGet t k with _ | es
    · rw [hte] at hget
      simp only [Option.some.injEq] at hget
      subst hget
      simp only [List.mem_singleton] at he
      subst he
      rfl
    · rw [hte] at hget
      simp only [Option.some.injEq] at hget
      subst hget
      unfold addDirEntry at he
      split at he
      · exact hg k es hte e he
      · rcases List.mem_append.1 he with h | h
        · exact hg k es hte e h
        · simp only [List.mem_singleton] at h
          subst h
          rfl
  · rw [treeGet_addDir_ne hk] at hget
    exact hg k' es' hget e he

theorem getNextBatchNum_none : getNextBatchNum none = 1 := rfl

theorem nextNum_addDir_label {t : FsTree} {q : Str × Str}
    (hg : GoodFsTree t) :
    nextNum (treeAddDir t q (batchLabel (nextNum t q))) q = nextNum t q + 1 := by
  unfold nextNum
  rw [treeGet_addDir_eq]
  rcases hte : treeGet t q with _ | es
  · show getNextBatchNum (some [⟨batchLabel 1, true⟩]) = 1 + 1
    rw [getNextBatchNum_some, List.filterMap_cons, entryContrib_batchLabel]
    simp [listMax]
  · show getNextBatchNum
        (some (addDirEntry es (batchLabel (getNextBatchNum (some es))))) =
      getNextBatchNum (some es) + 1
    set M := listMax (es.filterMap entryContrib) with hM
    have hnext : getNextBatchNum (some es) = M + 1 := by
      rw [getNextBatchNum_some]
    rw [hnext]
    have hfresh : ¬ (es.any (fun e => decide (e.name = batchLabel (M + 1))) = true) := by
      intro hany
      obtain ⟨e, he, hname⟩ := List.any_eq_true.1 hany
      rw [decide_eq_true_eq] at hname
      have hdir : e.isDir = true := hg q es hte e he
      have hee : e = ⟨batchLabel (M + 1), true⟩ := by
        cases e
        simp_all
      have hmem : (M + 1) ∈ es.filterMap entryContrib :=
        List.mem_filterMap.2 ⟨e, he, by rw [hee, entryContrib_batchLabel]⟩
      have := le_listMax_of_mem hmem
      omega
    unfold addDirEntry
    rw [if_neg hfresh]
    rw [getNextBatchNum_some, List.filterMap_append, listMax_append,
      List.filterMap_cons, entryContrib_batchLabel]
    simp [listMax]
    show listMax (List.filterMap entryContrib es) ≤ M + 1
    rw [← hM]
    omega

/-! ## Lemmas about chunk splitting -/

theorem chunksOfAux_nil (n fuel : Nat) : chunksOfAux n fuel [] = [] := by
  cases fuel <;> rfl

theorem chunksOfAux_zero (n : Nat) (l : List Row) : chunksOfAux n 0 l = [] := by
  cases l <;> rfl

theorem chunksOfAux_flatten {n : Nat} (hn : 0 < n) :
    ∀ (fuel : Nat) (l : List Row), l.length ≤ fuel →
      (chunksOfAux n fuel l).flatten = l := by
  intro fuel
  induction fuel with
  | zero =>
    intro l hl
    have : l = [] := List.eq_nil_of_length_eq_zero (Nat.le_zero.1 hl)
    subst this
    rfl
  | succ f ih =>
    intro l hl
    cases l with
    | nil => rfl
    | cons x xs =>
      show ((x :: xs).take n :: chunksOfAux n f ((x :: xs).drop n)).flatten = x :: xs
      rw [List.flatten_cons]
      rw [ih ((x :: xs).drop n)
        (by
          rw [List.length_drop]
          simp only [List.length_cons] at hl ⊢
          omega)]
      exact List.take_append_drop n (x :: xs)

theorem chunksOf_flatten {n : Nat} (hn : 0 < n) (l : List Row) :
    (chunksOf n l).flatten = l :=
  chunksOfAux_flatten hn l.length l (le_refl _)

theorem chunksOfAux_length_le {n : Nat} :
    ∀ (fuel : Nat) (l : List Row) (ch : List Row),
      ch ∈ chunksOfAux n fuel l → ch.length ≤ n := by
  intro fuel
  induction fuel with
  | zero =>
    intro l ch h
    rw [chunksOfAux_zero] at h
    cases h
  | succ f ih =>
    intro l ch h
    cases l with
    | nil => cases h
    | cons x xs =>
      rcases List.mem_cons.1 h with h | h
      · subst h
        rw [List.length_take]
        exact Nat.min_le_left _ _
      · exact ih _ ch h

theorem chunksOf_length_le {n : Nat} (l : List Row) :
    ∀ ch ∈ chunksOf n l, ch.length ≤ n :=
  fun ch h => chunksOfAux_length_le l.length l ch h

theorem chunksOfAux_ne_nil {n : Nat} (hn : 0 < n) :
    ∀ (fuel : Nat) (l : List Row) (ch : List Row),
      ch ∈ chunksOfAux n fuel l → ch ≠ [] := by
  intro fuel
  induction fuel with
  | zero =>
    intro l ch h
    rw [chunksOfAux_zero] at h
    cases h
  | succ f ih =>
    intro l ch h
    cases l with
    | nil => cases h
    | cons x xs =>
      rcases List.mem_cons.1 h with h | h
      · subst h
        cases n with
        | zero => omega
        | succ m =>
          intro hc
          rw [List.take_succ_cons] at hc
          cases hc
      · exact ih _ ch h

theorem chunksOf_mem_ne_nil {n : Nat} (hn : 0 < n) (l : List Row) :
    ∀ ch ∈ chunksOf n l, ch ≠ [] :=
  fun ch h => chunksOfAux_ne_nil hn l.length l ch h

theorem chunksOf_ne_nil {n : Nat} (l : List Row) (hl : l ≠ []) :
    chunksOf n l ≠ [] := by
  cases l with
  | nil => exact absurd rfl hl
  | cons x xs =>
    show chunksOfAux n (x :: xs).length (x :: xs) ≠ []
    rw [List.length_cons]
    simp [chunksOfAux]

theorem chunksOfAux_full {n : Nat} (hn : 0 < n) :
    ∀ (fuel : Nat) (l : List Row) (i : Nat), l.length ≤ fuel →
      i + 1 < (chunksOfAux n fuel l).length →
      ((chunksOfAux n fuel l).getD i []).length = n := by
  intro fuel
  induction fuel with
  | zero =>
    intro l i hl hi
    rw [chunksOfAux_zero] at hi
    simp at hi
  | succ f ih =>
    intro l i hl hi
    cases l with
    | nil => simp [chunksOfAux_nil] at hi
    | cons x xs =>
      show ((((x :: xs).take n) :: chunksOfAux n f ((x :: xs).drop n)).getD i []).length = n
      cases i with
      | zero =>
        simp only [List.getD_cons_zero]
        have hrest : chunksOfAux n f ((x :: xs).drop n) ≠ [] := by
          intro hempty
          show False
          have hred : chunksOfAux n (f + 1) (x :: xs) =
              ((x :: xs).take n) :: chunksOfAux n f ((x :: xs).drop n) := rfl
          rw [hred, hempty] at hi
          simp at hi
        have hdrop : (x :: xs).drop n ≠ [] := by
          intro hd
          rw [hd, chunksOfAux_nil] at hrest
          exact hrest rfl
        have hlen : n < (x :: xs).length := by
          by_contra hc
          push_neg at hc
          rw [List.drop_eq_nil_of_le hc] at hdrop
          exact hdrop rfl
        rw [List.length_take]
        omega
      | succ j =>
        simp only [List.getD_cons_succ]
        apply ih
        · rw [List.length_drop]
          simp only [List.length_cons] at hl ⊢
          omega
        · have hred : chunksOfAux n (f + 1) (x :: xs) =
              ((x :: xs).take n) :: chunksOfAux n f ((x :: xs).drop n) := rfl
          rw [hred, List.length_cons] at hi
          omega

theorem chunksOf_full {n : Nat} (hn : 0 < n) (l : List Row) (i : Nat)
    (hi : i + 1 < (chunksOf n l).length) :
    ((chunksOf n l).getD i []).length = n :=
  chunksOfAux_full hn l.length l i (le_refl _) hi

/-! ## Lemmas about the per-chunk row loop of `pack` -/

theorem packChunkCore_rows (d : Bool) (wavs : List Str) (s p lb : Str)
    (rows : List Row) :
    (packChunkCore d wavs s p lb rows).rows =
      rows.map (fun r =>
        if pathName r.audio_path ∈ wavs
        then { r with audio_path := relPath s p lb (pathName r.audio_path) }
        else r) := by
  induction rows with
  | nil => rfl
  | cons r rs ih =>
    simp only [packChunkCore, List.map_cons]
    by_cases h : pathName r.audio_path ∈ wavs
    · simp [h, ih]
    · simp [h, ih]

theorem packChunkCore_copies (d : Bool) (wavs : List Str) (s p lb : Str)
    (rows : List Row) :
    (packChunkCore d wavs s p lb rows).copies =
      (rows.filter (fun r => decide (pathName r.audio_path ∈ wavs))).map
        (fun r => (pathName r.audio_path, relPath s p lb (pathName r.audio_path))) := by
  induction rows with
  | nil => rfl
  | cons r rs ih =>
    simp only [packChunkCore, List.filter_cons]
    by_cases h : pathName r.audio_path ∈ wavs
    · simp [h, ih]
    · simp [h, ih]

theorem packChunkCore_skipped (d : Bool) (wavs : List Str) (s p lb : Str)
    (rows : List Row) :
    (packChunkCore d wavs s p lb rows).skipped =
      (rows.filter (fun r => decide (¬ pathName r.audio_path ∈ wavs))).length := by
  induction rows with
  | nil => rfl
  | cons r rs ih =>
    simp only [packChunkCore, List.filter_cons]
    by_cases h : pathName r.audio_path ∈ wavs
    · simp [h, ih]
    · simp [h, ih]

theorem packChunkCore_moved (d : Bool) (wavs : List Str) (s p lb : Str)
    (rows : List Row) :
    (packChunkCore d wavs s p lb rows).moved =
      if d then 0
      else (rows.filter (fun r => decide (pathName r.audio_path ∈ wavs))).length := by
  induction rows with
  | nil => cases d <;> rfl
  | cons r rs ih =>
    simp only [packChunkCore, List.filter_cons]
    by_cases h : pathName r.audio_path ∈ wavs
    · cases d <;> (simp [h, ih]; try omega)
    · cases d <;> (simp [h, ih]; try omega)

theorem packChunkCore_rows_length (d : Bool) (wavs : List Str) (s p lb : Str)
    (rows : List Row) :
    (packChunkCore d wavs s p lb rows).rows.length = rows.length := by
  rw [packChunkCore_rows, List.length_map]

/-! ## Grouping: `groupby` reorders the table but loses no row -/

theorem insertKey_perm (k : Str × Str) (l : List (Str × Str)) :
    List.Perm (insertKey k l) (k :: l) := by
  induction l with
  | nil => exact List.Perm.refl _
  | cons x xs ih =>
    simp only [insertKey]
    split
    · exact List.Perm.refl _
    · exact (ih.cons x).trans (List.Perm.swap k x xs)

theorem sortKeys_perm (l : List (Str × Str)) : List.Perm (sortKeys l) l := by
  induction l with
  | nil => exact List.Perm.refl _
  | cons x xs ih =>
    show List.Perm (insertKey x (sortKeys xs)) (x :: xs)
    exact (insertKey_perm x (sortKeys xs)).trans (ih.cons x)

theorem mem_groupKeys {df : List Row} {k : Str × Str} :
    k ∈ groupKeys df ↔ k ∈ df.map rowKey := by
  unfold groupKeys
  rw [(sortKeys_perm _).mem_iff]
  exact List.mem_dedup

theorem groupKeys_nodup (df : List Row) : (groupKeys df).Nodup :=
  ((sortKeys_perm _).nodup_iff).2 (List.nodup_dedup _)

theorem group_of_mem_groupKeys {df : List Row} {k : Str × Str}
    (h : k ∈ groupKeys df) :
    df.filter (fun r => decide (rowKey r = k)) ≠ [] := by
  rw [mem_groupKeys] at h
  obtain ⟨r, hr, hk⟩ := List.mem_map.1 h
  intro hempty
  have : r ∈ df.filter (fun r => decide (rowKey r = k)) :=
    List.mem_filter.2 ⟨hr, by simp [hk]⟩
  rw [hempty] at this
  cases this

theorem groups_flatten_perm :
    ∀ (ks : List (Str × Str)) (df : List Row), ks.Nodup →
      (∀ r ∈ df, rowKey r ∈ ks) →
      List.Perm (ks.map (fun k => df.filter (fun r => decide (rowKey r = k)))).flatten df := by
  intro ks
  induction ks with
  | nil =>
    intro df _ hcov
    have : df = [] := List.eq_nil_iff_forall_not_mem.2 (fun r hr => by cases hcov r hr)
    subst this
    exact List.Perm.refl _
  | cons k ks ih =>
    intro df hnd hcov
    rw [List.map_cons, List.flatten_cons]
    have hnotmem : k ∉ ks := (List.nodup_cons.1 hnd).1
    have hrest : ∀ k' ∈ ks,
        df.filter (fun r => decide (rowKey r = k')) =
          (df.filter (fun r => !(decide (rowKey r = k)))).filter
            (fun r => decide (rowKey r = k')) := by
      intro k' hk'
      rw [List.filter_filter]
      apply List.filter_congr
      intro r _
      by_cases h : rowKey r = k'
      · have hne : rowKey r ≠ k := by
          rw [h]; intro he; exact hnotmem (he ▸ hk')
        have hkk : k' ≠ k := fun he => hnotmem (he ▸ hk')
        simp [h, hne, hkk]
      · simp [h]
    have hmapeq :
        ks.map (fun k' => df.filter (fun r => decide (rowKey r = k'))) =
          ks.map (fun k' =>
            (df.filter (fun r => !(decide (rowKey r = k)))).filter
              (fun r => decide (rowKey r = k'))) := by
      apply List.map_congr_left
      intro k' hk'
      exact hrest k' hk'
    rw [hmapeq]
    have hih :
        List.Perm (ks.map (fun k' =>
          (df.filter (fun r => !(decide (rowKey r = k)))).filter
            (fun r => decide (rowKey r = k')))).flatten
          (df.filter (fun r => !(decide (rowKey r = k)))) := by
      apply ih _ (List.nodup_cons.1 hnd).2
      intro r hr
      obtain ⟨hrdf, hneg⟩ := List.mem_filter.1 hr
      rcases List.mem_cons.1 (hcov r hrdf) with h | h
      · rw [h] at hneg; simp at hneg
      · exact h
    exact ((hih.append_left _).trans
      (List.filter_append_perm (fun r => decide (rowKey r = k)) df))

/-! ## Path handling: partitioned paths flatten back to `wavs/<name>` -/

/-- The flat rewrite `unpack` applies to every row. -/
def flattenRow (r : Row) : Row :=
  { r with audio_path := str "wavs/" ++ pathName r.audio_path }

theorem pathName_good {s : Str} (h : pathName s ≠ []) :
    '/' ∉ pathName s ∧ pathName s ≠ ['.'] := by
  unfold pathName at h ⊢
  rcases getLastD_cases ((splitOnChar '/' s).filter
      (fun c => decide (c ≠ [] ∧ c ≠ ['.']))) with hc | hc
  · exact absurd hc h
  · obtain ⟨hmem, hpred⟩ := List.mem_filter.1 hc
    rw [decide_eq_true_eq] at hpred
    exact ⟨not_mem_of_mem_splitOnChar hmem, hpred.2⟩

theorem pathName_relPath {s p lb fname : Str} (hne : fname ≠ [])
    (hsl : '/' ∉ fname) (hdot : fname ≠ ['.']) :
    pathName (relPath s p lb fname) = fname := by
  have hsplitf : splitOnChar '/' fname = [fname] := splitOnChar_of_not_mem hsl
  have hre : relPath s p lb fname =
      (str "audio/" ++ s ++ [ '/' ] ++ p ++ [ '/' ] ++ lb) ++ '/' :: fname := by
    unfold relPath
    simp [List.append_assoc]
  unfold pathName
  rw [hre, splitOnChar_append, hsplitf, List.filter_append]
  rw [show List.filter (fun c => decide (c ≠ [] ∧ c ≠ ['.'])) [fname] = [fname] from by
    simp [hne, hdot]]
  exact getLastD_append_singleton _ fname

theorem flattenRow_relPath {s p lb : Str} (r : Row)
    (hne : pathName r.audio_path ≠ []) :
    flattenRow { r with audio_path := relPath s p lb (pathName r.audio_path) } =
      flattenRow r := by
  obtain ⟨hsl, hdot⟩ := pathName_good hne
  unfold flattenRow
  simp [pathName_relPath hne hsl hdot]

/-! ## Lemmas about the row loop of `unpack` -/

theorem unpackCore_rows (d : Bool) (files : List Str) (rows : List Row) :
    (unpackCore d files rows).rows = rows.map flattenRow := by
  induction rows with
  | nil => rfl
  | cons r rs ih =>
    simp only [unpackCore, List.map_cons]
    by_cases h : r.audio_path ∈ files
    · simp [h, ih, flattenRow]
    · simp [h, ih, flattenRow]

theorem unpackCore_missing (d : Bool) (files : List Str) (rows : List Row) :
    (unpackCore d files rows).missing =
      (rows.filter (fun r => decide (¬ r.audio_path ∈ files))).length := by
  induction rows with
  | nil => rfl
  | cons r rs ih =>
    simp only [unpackCore, List.filter_cons]
    by_cases h : r.audio_path ∈ files
    · simp [h, ih]
    · simp [h, ih]

theorem unpackCore_copies (d : Bool) (files : List Str) (rows : List Row) :
    (unpackCore d files rows).copies =
      (rows.filter (fun r => decide (r.audio_path ∈ files))).map
        (fun r => (r.audio_path, str "wavs/" ++ pathName r.audio_path)) := by
  induction rows with
  | nil => rfl
  | cons r rs ih =>
    simp only [unpackCore, List.filter_cons]
    by_cases h : r.audio_path ∈ files
    · simp [h, ih]
    · simp [h, ih]

theorem unpackCore_copied (d : Bool) (files : List Str) (rows : List Row) :
    (unpackCore d files rows).copied =
      if d then 0
      else (rows.filter (fun r => decide (r.audio_path ∈ files))).length := by
  induction rows with
  | nil => cases d <;> rfl
  | cons r rs ih =>
    simp only [unpackCore, List.filter_cons]
    by_cases h : r.audio_path ∈ files
    · cases d <;> (simp [h, ih]; try omega)
    · cases d <;> (simp [h, ih]; try omega)

/-! ## Structure of the chunk loop of `pack` -/

theorem packChunks_shard_names (d : Bool) (w : List Str) (e : Option Str)
    (s p : Str) (st : Nat) :
    ∀ (chs : List (List Row)) (idx : Nat) (t : FsTree),
      (packChunks d w e s p st idx chs t).shards.map (fun x => x.1) =
        (List.range chs.length).map (fun j => shardName s p (labelFor e st (idx + j))) := by
  intro chs
  induction chs with
  | nil => intro idx t; rfl
  | cons ch chs ih =>
    intro idx t
    simp only [packChunks, List.map_cons, List.length_cons]
    rw [List.range_succ_eq_map, List.map_cons, List.map_map]
    refine List.cons_eq_cons.2 ⟨by rw [Nat.add_zero], ?_⟩
    rw [ih (idx + 1)]
    apply List.map_congr_left
    intro j hj
    have harith : idx + 1 + j = idx + Nat.succ j := by omega
    simp [harith]

theorem packChunks_batches (d : Bool) (w : List Str) (e : Option Str)
    (s p : Str) (st : Nat) :
    ∀ (chs : List (List Row)) (idx : Nat) (t : FsTree),
      (packChunks d w e s p st idx chs t).batches =
        (List.range chs.length).map (fun j => ((s, p), st + idx + j)) := by
  intro chs
  induction chs with
  | nil => intro idx t; rfl
  | cons ch chs ih =>
    intro idx t
    simp only [packChunks, List.length_cons]
    rw [List.range_succ_eq_map, List.map_cons, List.map_map]
    refine List.cons_eq_cons.2 ⟨by rw [Nat.add_zero], ?_⟩
    rw [ih (idx + 1)]
    apply List.map_congr_left
    intro j hj
    have harith : st + (idx + 1) + j = st + idx + Nat.succ j := by omega
    simp [harith]

theorem packChunks_sum_lengths (d : Bool) (w : List Str) (e : Option Str)
    (s p : Str) (st : Nat) :
    ∀ (chs : List (List Row)) (idx : Nat) (t : FsTree),
      ((packChunks d w e s p st idx chs t).shards.map (fun x => x.2.length)).sum =
        (chs.map List.length).sum := by
  intro chs
  induction chs with
  | nil => intro idx t; rfl
  | cons ch chs ih =>
    intro idx t
    simp only [packChunks, List.map_cons, List.sum_cons]
    rw [ih (idx + 1), packChunkCore_rows_length]

theorem packChunks_tree_other (d : Bool) (w : List Str) (e : Option Str)
    (s p : Str) (st : Nat) :
    ∀ (chs : List (List Row)) (idx : Nat) (t : FsTree) (q : Str × Str),
      q ≠ (s, p) →
      treeGet (packChunks d w e s p st idx chs t).tree q = treeGet t q := by
  intro chs
  induction chs with
  | nil => intro idx t q hq; rfl
  | cons ch chs ih =>
    intro idx t q hq
    simp only [packChunks]
    split
    · exact ih (idx + 1) t q hq
    · rw [ih (idx + 1) _ q hq, treeGet_addDir_ne (fun h => hq h.symm)]

theorem packChunks_tree_dry (w : List Str) (e : Option Str)
    (s p : Str) (st : Nat) :
    ∀ (chs : List (List Row)) (idx : Nat) (t : FsTree),
      (packChunks true w e s p st idx chs t).tree = t := by
  intro chs
  induction chs with
  | nil => intro idx t; rfl
  | cons ch chs ih =>
    intro idx t
    simp only [packChunks]
    rw [if_pos (by simp)]
    exact ih (idx + 1) t

theorem packChunks_flatten_map (d : Bool) (w : List Str) (e : Option Str)
    (s p : Str) (st : Nat) :
    ∀ (chs : List (List Row)) (idx : Nat) (t : FsTree),
      (∀ ch ∈ chs, ∀ r ∈ ch,
        pathName r.audio_path ∈ w → pathName r.audio_path ≠ []) →
      (((packChunks d w e s p st idx chs t).shards.map (fun x => x.2)).flatten).map
          flattenRow =
        (chs.flatten).map flattenRow := by
  intro chs
  induction chs with
  | nil => intro idx t hch; rfl
  | cons ch chs ih =>
    intro idx t hch
    simp only [packChunks, List.map_cons, List.flatten_cons, List.map_append]
    rw [ih (idx + 1) _ (fun c hc => hch c (List.mem_cons_of_mem ch hc))]
    congr 1
    rw [packChunkCore_rows, List.map_map]
    apply List.map_congr_left
    intro r hr
    by_cases hmem : pathName r.audio_path ∈ w
    · simp only [Function.comp, if_pos hmem]
      exact flattenRow_relPath r (hch ch (List.mem_cons_self ch chs) r hr hmem)
    · simp only [Function.comp, if_neg hmem]

/-! ## Batch-number invariants across a run -/

theorem packChunkCore_copies_ne_nil {w : List Str} {s p lb : Str} {d : Bool}
    {ch : List Row} (hne : ch ≠ [])
    (hpres : ∀ r ∈ ch, pathName r.audio_path ∈ w) :
    (packChunkCore d w s p lb ch).copies ≠ [] := by
  rw [packChunkCore_copies]
  rw [List.filter_eq_self.2 (fun r hr => by simp [hpres r hr])]
  simp [hne]

theorem packChunks_invar (w : List Str) (s p : Str) (st : Nat) :
    ∀ (chs : List (List Row)) (idx : Nat) (t : FsTree),
      GoodFsTree t →
      st + idx = nextNum t (s, p) →
      (∀ ch ∈ chs, ch ≠ [] ∧ ∀ r ∈ ch, pathName r.audio_path ∈ w) →
      GoodFsTree (packChunks false w none s p st idx chs t).tree ∧
        nextNum (packChunks false w none s p st idx chs t).tree (s, p) =
          st + idx + chs.length := by
  intro chs
  induction chs with
  | nil =>
    intro idx t hg hst hch
    exact ⟨hg, by simpa using hst.symm⟩
  | cons ch chs ih =>
    intro idx t hg hst hch
    obtain ⟨hne, hpres⟩ := hch ch (List.mem_cons_self ch chs)
    simp only [packChunks]
    rw [if_neg (by
      simp only [Bool.false_or]
      rw [List.isEmpty_iff]
      exact packChunkCore_copies_ne_nil hne hpres)]
    have hlabel : labelFor none st idx = batchLabel (nextNum t (s, p)) := by
      rw [← hst]; rfl
    rw [hlabel]
    have hg' : GoodFsTree (treeAddDir t (s, p) (batchLabel (nextNum t (s, p)))) :=
      goodFsTree_addDir hg
    have hst' : st + (idx + 1) =
        nextNum (treeAddDir t (s, p) (batchLabel (nextNum t (s, p)))) (s, p) := by
      rw [nextNum_addDir_label hg, ← hst]
      omega
    obtain ⟨hga, hna⟩ := ih (idx + 1) _ hg' hst'
      (fun c hc => hch c (List.mem_cons_of_mem ch hc))
    refine ⟨hga, ?_⟩
    rw [hna]
    simp only [List.length_cons]
    omega

/-- Total number of auto chunks a run assigns to sanitized partition `q`,
over the listed group keys. -/
def totalChunks (mr : Nat) (df : List Row) (q : Str × Str) :
    List (Str × Str) → Nat
  | [] => 0
  | k :: ks =>
    (if sanKey k = q
      then (chunksOf mr (df.filter (fun r => decide (rowKey r = k)))).length
      else 0) + totalChunks mr df q ks

theorem mem_range_map_pair {q p0 : Str × Str} {a c n : Nat} :
    ((q, n) ∈ (List.range c).map (fun j => (p0, a + j))) ↔
      (q = p0 ∧ a ≤ n ∧ n < a + c) := by
  constructor
  · intro h
    obtain ⟨j, hj, he⟩ := List.mem_map.1 h
    rw [List.mem_range] at hj
    obtain ⟨h1, h2⟩ := Prod.mk.injEq _ _ _ _ ▸ he
    exact ⟨h1.symm, by omega, by omega⟩
  · rintro ⟨hq, h1, h2⟩
    subst hq
    refine List.mem_map.2 ⟨n - a, List.mem_range.2 (by omega), ?_⟩
    rw [Nat.add_sub_cancel' h1]

theorem totalChunks_pos {mr : Nat} {df : List Row} {q : Str × Str}
    {k : Str × Str} :
    ∀ ks : List (Str × Str), k ∈ ks → sanKey k = q →
      df.filter (fun r => decide (rowKey r = k)) ≠ [] →
      0 < totalChunks mr df q ks := by
  intro ks
  induction ks with
  | nil => intro h; cases h
  | cons k' ks ih =>
    intro hmem hq hne
    rcases List.mem_cons.1 hmem with h | h
    · subst h
      simp only [totalChunks, if_pos hq]
      have hnn := @chunksOf_ne_nil mr (df.filter (fun r => decide (rowKey r = k))) hne
      have hlen := List.length_pos.2 hnn
      omega
    · have := ih h hq hne
      simp only [totalChunks]
      omega

theorem packGroups_invar (w : List Str) (mr : Nat) (df : List Row)
    (hmr : 0 < mr)
    (hpres : ∀ r ∈ df, pathName r.audio_path ∈ w) :
    ∀ (ks : List (Str × Str)) (t : FsTree),
      GoodFsTree t →
      (∀ k ∈ ks, df.filter (fun r => decide (rowKey r = k)) ≠ []) →
      GoodFsTree (packGroups false w none mr df ks t).tree ∧
        (∀ q, nextNum (packGroups false w none mr df ks t).tree q =
          nextNum t q + totalChunks mr df q ks) ∧
        (∀ q n, ((q, n) ∈ (packGroups false w none mr df ks t).batches ↔
          (nextNum t q ≤ n ∧ n < nextNum t q + totalChunks mr df q ks))) := by
  intro ks
  induction ks with
  | nil =>
    intro t hg _
    refine ⟨hg, fun q => by simp only [totalChunks, Nat.add_zero]; rfl, fun q n => ?_⟩
    simp only [totalChunks]
    constructor
    · intro h
      rw [show (packGroups false w none mr df [] t).batches =
        ([] : List ((Str × Str) × Nat)) from rfl] at h
      cases h
    · intro h
      exact absurd h (by omega)
  | cons k ks ih =>
    intro t hg hnonempty
    have hrows_ne : df.filter (fun r => decide (rowKey r = k)) ≠ [] :=
      hnonempty k (List.mem_cons_self k ks)
    set rows := df.filter (fun r => decide (rowKey r = k)) with hrows
    have hchunks : ∀ ch ∈ chunksOf mr rows,
        ch ≠ [] ∧ ∀ r ∈ ch, pathName r.audio_path ∈ w := by
      intro ch hch
      refine ⟨chunksOf_mem_ne_nil hmr rows ch hch, ?_⟩
      intro r hr
      have hrmem : r ∈ rows := by
        have hfl := List.mem_flatten.2 ⟨ch, hch, hr⟩
        rwa [chunksOf_flatten hmr] at hfl
      exact hpres r (List.mem_filter.1 (hrows ▸ hrmem)).1
    have hproc : processGroup false w none mr k rows t =
        packChunks false w none (sanitise k.1) (sanitise k.2)
          (nextNum t (sanKey k)) 0 (chunksOf mr rows) t := rfl
    obtain ⟨hg1, hn1⟩ := packChunks_invar w (sanitise k.1) (sanitise k.2)
      (nextNum t (sanKey k)) (chunksOf mr rows) 0 t hg (by rw [Nat.add_zero]; rfl)
      hchunks
    have hother : ∀ q, q ≠ sanKey k →
        nextNum (processGroup false w none mr k rows t).tree q = nextNum t q := by
      intro q hq
      rw [hproc]
      unfold nextNum
      rw [packChunks_tree_other _ _ _ _ _ _ _ _ _ q hq]
    set c := (chunksOf mr rows).length with hc
    have hgood1 : GoodFsTree (processGroup false w none mr k rows t).tree := by
      rw [hproc]; exact hg1
    have hnext1 : ∀ q, nextNum (processGroup false w none mr k rows t).tree q =
        nextNum t q + (if sanKey k = q then c else 0) := by
      intro q
      by_cases hq : sanKey k = q
      · subst hq
        rw [if_pos rfl, hproc]
        rw [show nextNum t (sanKey k) + 0 + c =
          nextNum t (sanKey k) + c from by omega] at hn1
        exact hn1
      · rw [if_neg hq, hother q (fun he => hq he.symm)]
        omega
    have hb1 : (processGroup false w none mr k rows t).batches =
        (List.range c).map (fun j => (sanKey k, nextNum t (sanKey k) + j)) := by
      rw [hproc, packChunks_batches]
      apply List.map_congr_left
      intro j hj
      simp [sanKey]
    obtain ⟨ihg, ihn, ihb⟩ := ih (processGroup false w none mr k rows t).tree hgood1
      (fun k' hk' => hnonempty k' (List.mem_cons_of_mem k hk'))
    have htree : (packGroups false w none mr df (k :: ks) t).tree =
        (packGroups false w none mr df ks
          (processGroup false w none mr k rows t).tree).tree := rfl
    have hbat : (packGroups false w none mr df (k :: ks) t).batches =
        (processGroup false w none mr k rows t).batches ++
          (packGroups false w none mr df ks
            (processGroup false w none mr k rows t).tree).batches := rfl
    refine ⟨htree ▸ ihg, ?_, ?_⟩
    · intro q
      rw [htree, ihn q, hnext1 q]
      simp only [totalChunks]
      rw [← hrows, ← hc]
      omega
    · intro q n
      rw [hbat, List.mem_append, hb1, mem_range_map_pair, ihb q n, hnext1 q]
      simp only [totalChunks]
      rw [← hrows, ← hc]
      by_cases hq : sanKey k = q
      · subst hq
        rw [if_pos rfl]
        constructor
        · rintro (⟨_, h1, h2⟩ | ⟨h1, h2⟩) <;> (constructor <;> omega)
        · rintro ⟨h1, h2⟩
          by_cases hn : n < nextNum t (sanKey k) + c
          · exact Or.inl ⟨rfl, h1, hn⟩
          · right
            constructor <;> omega
      · rw [if_neg hq]
        constructor
        · rintro (⟨h1, _, _⟩ | ⟨h1, h2⟩)
          · exact absurd h1.symm hq
          · constructor <;> omega
        · rintro ⟨h1, h2⟩
          right
          constructor <;> omega

/-! ## Row conservation and flattening across a whole run -/

theorem processGroup_sum {mr : Nat} (hmr : 0 < mr) (d : Bool) (w : List Str)
    (e : Option Str) (k : Str × Str) (rows : List Row) (t : FsTree) :
    ((processGroup d w e mr k rows t).shards.map (fun x => x.2.length)).sum
      = rows.length := by
  rcases e with _ | b
  · show ((packChunks d w none (sanitise k.1) (sanitise k.2)
      (getNextBatchNum (treeGet t (sanitise k.1, sanitise k.2))) 0
      (chunksOf mr rows) t).shards.map (fun x => x.2.length)).sum = rows.length
    rw [packChunks_sum_lengths, ← List.length_flatten, chunksOf_flatten hmr]
  · show ((packChunks d w (some b) (sanitise k.1) (sanitise k.2) 0 0
      [rows] t).shards.map (fun x => x.2.length)).sum = rows.length
    rw [packChunks_sum_lengths]
    simp

theorem processGroup_flatten_map {mr : Nat} (hmr : 0 < mr) (d : Bool)
    (w : List Str) (e : Option Str) (k : Str × Str) (rows : List Row) (t : FsTree)
    (hfn : ∀ r ∈ rows, pathName r.audio_path ∈ w → pathName r.audio_path ≠ []) :
    (((processGroup d w e mr k rows t).shards.map (fun x => x.2)).flatten).map
        flattenRow = rows.map flattenRow := by
  rcases e with _ | b
  · have hch : ∀ ch ∈ chunksOf mr rows, ∀ r ∈ ch,
        pathName r.audio_path ∈ w → pathName r.audio_path ≠ [] := by
      intro ch hchm r hr hmem
      apply hfn r _ hmem
      have hfl := List.mem_flatten.2 ⟨ch, hchm, hr⟩
      rwa [chunksOf_flatten hmr] at hfl
    have hrw := packChunks_flatten_map d w none (sanitise k.1) (sanitise k.2)
      (getNextBatchNum (treeGet t (sanitise k.1, sanitise k.2)))
      (chunksOf mr rows) 0 t hch
    show (((packChunks d w none (sanitise k.1) (sanitise k.2)
      (getNextBatchNum (treeGet t (sanitise k.1, sanitise k.2))) 0
      (chunksOf mr rows) t).shards.map (fun x => x.2)).flatten).map flattenRow
        = rows.map flattenRow
    rw [hrw, chunksOf_flatten hmr]
  · have hch : ∀ ch ∈ ([rows] : List (List Row)), ∀ r ∈ ch,
        pathName r.audio_path ∈ w → pathName r.audio_path ≠ [] := by
      intro ch hchm r hr hmem
      simp only [List.mem_singleton] at hchm
      subst hchm
      exact hfn r hr hmem
    have hrw := packChunks_flatten_map d w (some b) (sanitise k.1) (sanitise k.2)
      0 [rows] 0 t hch
    show (((packChunks d w (some b) (sanitise k.1) (sanitise k.2) 0 0
      [rows] t).shards.map (fun x => x.2)).flatten).map flattenRow
        = rows.map flattenRow
    rw [hrw]
    simp

theorem packGroups_sum_lengths (d : Bool) (w : List Str) (e : Option Str)
    {mr : Nat} (hmr : 0 < mr) (df : List Row) :
    ∀ (ks : List (Str × Str)) (t : FsTree),
      ((packGroups d w e mr df ks t).shards.map (fun x => x.2.length)).sum =
        (ks.map (fun k => (df.filter (fun r => decide (rowKey r = k))).length)).sum := by
  intro ks
  induction ks with
  | nil => intro t; rfl
  | cons k ks ih =>
    intro t
    have hsplit : (packGroups d w e mr df (k :: ks) t).shards =
        (processGroup d w e mr k (df.filter (fun r => decide (rowKey r = k))) t).shards
          ++ (packGroups d w e mr df ks
            (processGroup d w e mr k (df.filter (fun r => decide (rowKey r = k)))
              t).tree).shards := rfl
    rw [hsplit, List.map_append, List.sum_append, ih, List.map_cons, List.sum_cons,
      processGroup_sum hmr]

theorem packGroups_flatten_map (d : Bool) (w : List Str) (e : Option Str)
    {mr : Nat} (hmr : 0 < mr) (df : List Row)
    (hfn : ∀ r ∈ df, pathName r.audio_path ∈ w → pathName r.audio_path ≠ []) :
    ∀ (ks : List (Str × Str)) (t : FsTree),
      (((packGroups d w e mr df ks t).shards.map (fun x => x.2)).flatten).map
          flattenRow =
        ((ks.map (fun k => df.filter (fun r => decide (rowKey r = k)))).flatten).map
          flattenRow := by
  intro ks
  induction ks with
  | nil => intro t; rfl
  | cons k ks ih =>
    intro t
    have hsplit : (packGroups d w e mr df (k :: ks) t).shards =
        (processGroup d w e mr k (df.filter (fun r => decide (rowKey r = k))) t).shards
          ++ (packGroups d w e mr df ks
            (processGroup d w e mr k (df.filter (fun r => decide (rowKey r = k)))
              t).tree).shards := rfl
    rw [hsplit, List.map_append, List.flatten_append, List.map_append, ih,
      List.map_cons, List.flatten_cons, List.map_append]
    congr 1
    exact processGroup_flatten_map hmr d w e k _ t
      (fun r hr hmem => hfn r (List.mem_filter.1 hr).1 hmem)

/-! ## Dry-run versus real-run comparison -/

theorem packChunks_shards_indep (w : List Str) (e : Option Str) (s p : Str)
    (st : Nat) :
    ∀ (chs : List (List Row)) (idx : Nat) (d d' : Bool) (t t' : FsTree),
      (packChunks d w e s p st idx chs t).shards =
        (packChunks d' w e s p st idx chs t').shards := by
  intro chs
  induction chs with
  | nil => intro idx d d' t t'; rfl
  | cons ch chs ih =>
    intro idx d d' t t'
    show (shardName s p (labelFor e st idx), (packChunkCore d w s p _ ch).rows) :: _ =
      (shardName s p (labelFor e st idx), (packChunkCore d' w s p _ ch).rows) :: _
    refine List.cons_eq_cons.2 ⟨?_, ih (idx + 1) d d' _ _⟩
    rw [packChunkCore_rows, packChunkCore_rows]

theorem packChunks_copies_indep (w : List Str) (e : Option Str) (s p : Str)
    (st : Nat) :
    ∀ (chs : List (List Row)) (idx : Nat) (d d' : Bool) (t t' : FsTree),
      (packChunks d w e s p st idx chs t).copies =
        (packChunks d' w e s p st idx chs t').copies := by
  intro chs
  induction chs with
  | nil => intro idx d d' t t'; rfl
  | cons ch chs ih =>
    intro idx d d' t t'
    show (packChunkCore d w s p _ ch).copies ++ _ =
      (packChunkCore d' w s p _ ch).copies ++ _
    rw [packChunkCore_copies, packChunkCore_copies, ih (idx + 1) d d' _ _]

theorem packGroups_tree_dry (w : List Str) (e : Option Str) (mr : Nat)
    (df : List Row) :
    ∀ (ks : List (Str × Str)) (t : FsTree),
      (packGroups true w e mr df ks t).tree = t := by
  intro ks
  induction ks with
  | nil => intro t; rfl
  | cons k ks ih =>
    intro t
    show (packGroups true w e mr df ks
      (processGroup true w e mr k (df.filter (fun r => decide (rowKey r = k))) t).tree).tree = t
    rw [ih]
    show (packChunks true w e (sanitise k.1) (sanitise k.2) _ 0 _ t).tree = t
    rw [packChunks_tree_dry]

/-- The start number `pack` uses for a group (0 when an explicit label is
given, since `get_next_batch_num` is not called). -/
def startOf (e : Option Str) (t : FsTree) (k : Str × Str) : Nat :=
  match e with
  | some _ => 0
  | none => getNextBatchNum (treeGet t (sanitise k.1, sanitise k.2))

/-- The chunk list `pack` uses for a group. -/
def chunksFor (e : Option Str) (mr : Nat) (rows : List Row) : List (List Row) :=
  match e with
  | some _ => [rows]
  | none => chunksOf mr rows

theorem processGroup_eq (d : Bool) (w : List Str) (e : Option Str) (mr : Nat)
    (k : Str × Str) (rows : List Row) (t : FsTree) :
    processGroup d w e mr k rows t =
      packChunks d w e (sanitise k.1) (sanitise k.2) (startOf e t k) 0
        (chunksFor e mr rows) t := by
  rcases e with _ | b <;> rfl

theorem startOf_congr (e : Option Str) {tR tD : FsTree} (k : Str × Str)
    (h : treeGet tR (sanKey k) = treeGet tD (sanKey k)) :
    startOf e tR k = startOf e tD k := by
  rcases e with _ | b
  · exact congrArg getNextBatchNum h
  · rfl

theorem packGroups_dry_real (w : List Str) (e : Option Str) (mr : Nat)
    (df : List Row) :
    ∀ (ks : List (Str × Str)) (tR tD : FsTree),
      ks.Pairwise (fun a b => sanKey a ≠ sanKey b) →
      (∀ k ∈ ks, treeGet tR (sanKey k) = treeGet tD (sanKey k)) →
      (packGroups false w e mr df ks tR).shards =
          (packGroups true w e mr df ks tD).shards ∧
        (packGroups false w e mr df ks tR).copies =
          (packGroups true w e mr df ks tD).copies ∧
        (packGroups false w e mr df ks tR).batches =
          (packGroups true w e mr df ks tD).batches := by
  intro ks
  induction ks with
  | nil => intro tR tD _ _; exact ⟨rfl, rfl, rfl⟩
  | cons k ks ih =>
    intro tR tD hpw hinv
    have hpw' := (List.pairwise_cons.1 hpw).2
    have hhead := (List.pairwise_cons.1 hpw).1
    set rows := df.filter (fun r => decide (rowKey r = k)) with hrows
    have hst : startOf e tR k = startOf e tD k :=
      startOf_congr e k (hinv k (List.mem_cons_self k ks))
    have hinv' : ∀ k' ∈ ks,
        treeGet (processGroup false w e mr k rows tR).tree (sanKey k') =
          treeGet tD (sanKey k') := by
      intro k' hk'
      rw [processGroup_eq, packChunks_tree_other _ _ _ _ _ _ _ _ _ _
        (hhead k' hk').symm]
      exact hinv k' (List.mem_cons_of_mem k hk')
    have hdrytree : (processGroup true w e mr k rows tD).tree = tD := by
      rw [processGroup_eq, packChunks_tree_dry]
    obtain ⟨ihs, ihc, ihb⟩ := ih (processGroup false w e mr k rows tR).tree
      (processGroup true w e mr k rows tD).tree hpw'
      (by rw [hdrytree]; exact hinv')
    have hgs : (processGroup false w e mr k rows tR).shards =
        (processGroup true w e mr k rows tD).shards := by
      rw [processGroup_eq, processGroup_eq, hst]
      exact packChunks_shards_indep w e _ _ _ _ 0 false true tR tD
    have hgc : (processGroup false w e mr k rows tR).copies =
        (processGroup true w e mr k rows tD).copies := by
      rw [processGroup_eq, processGroup_eq, hst]
      exact packChunks_copies_indep w e _ _ _ _ 0 false true tR tD
    have hgb : (processGroup false w e mr k rows tR).batches =
        (processGroup true w e mr k rows tD).batches := by
      rw [processGroup_eq, processGroup_eq, hst, packChunks_batches, packChunks_batches]
    refine ⟨?_, ?_, ?_⟩
    · show (processGroup false w e mr k rows tR).shards ++ _ =
        (processGroup true w e mr k rows tD).shards ++ _
      rw [hgs, ihs]
    · show (processGroup false w e mr k rows tR).copies ++ _ =
        (processGroup true w e mr k rows tD).copies ++ _
      rw [hgc, ihc]
    · show (processGroup false w e mr k rows tR).batches ++ _ =
        (processGroup true w e mr k rows tD).batches ++ _
      rw [hgb, ihb]

/-! ## Claim theorems -/

/-- `Modelled from the spec:` the spec's reading of the batch-number scan, in
which only directories literally of the form `batch_` followed by four
digits contribute a numeric suffix. -/
def specBatchSuffix (e : DirEntry) : Option Nat :=
  if e.isDir && strStarts (str "batch_") e.name
      && decide ((e.name.drop 6).length = 4) && (e.name.drop 6).all Char.isDigit
  then some (digitsVal (e.name.drop 6)) else none

/-- `Modelled from the spec:` `1 + max(existing numeric suffixes of
"batch_####" directories)`, or `1` when the directory does not exist. -/
def specNextBatchNum (entries : Option (List DirEntry)) : Nat :=
  match entries with
  | none => 1
  | some es => listMax (es.filterMap specBatchSuffix) + 1

/-- C3, counterexample: a directory named `batch_2026_01` (the explicit-label
example from the repository's own documentation) is not of the form
`batch_####`, yet `get_next_batch_num` counts its final token `01` and
returns `2`, where the claim's reading returns `1`. -/
theorem claim_C3_counterexample :
    getNextBatchNum (some [⟨str "batch_2026_01", true⟩]) = 2 ∧
      specNextBatchNum (some [⟨str "batch_2026_01", true⟩]) = 1 := by decide

/-- C3 (amended): the starting batch number is `1` when the speaker directory
does not exist, and otherwise `1 +` the maximum contribution over its
entries, where an entry contributes exactly when it is a directory whose
name starts with `batch_` and whose final `_`-separated token parses as an
integer (clamped to 0 when negative); every `batch_%04d` label contributes
its own number, and non-directories or names without the `batch_` prefix
contribute nothing. -/
theorem claim_C3 :
    getNextBatchNum none = 1 ∧
      (∀ es, getNextBatchNum (some es) = listMax (es.filterMap entryContrib) + 1) ∧
      (∀ n, entryContrib ⟨batchLabel n, true⟩ = some n) ∧
      (∀ e : DirEntry, e.isDir = false → entryContrib e = none) ∧
      (∀ e : DirEntry, strStarts (str "batch_") e.name = false →
        entryContrib e = none) := by
  refine ⟨rfl, getNextBatchNum_some, entryContrib_batchLabel, ?_, ?_⟩
  · intro e he
    simp [entryContrib, he]
  · intro e he
    simp [entryContrib, he]

/-- C3, witness for the hypothesis-bearing conjuncts. -/
theorem claim_C3_witness :
    entryContrib ⟨str "misc", true⟩ = none :=
  claim_C3.2.2.2.2 ⟨str "misc", true⟩ (by decide)

/-- C4: with a positive `max_rows` and no explicit label, a group is split
into consecutive order-preserving chunks whose concatenation is the group,
every chunk has at most `max_rows` rows, every non-final chunk has exactly
`max_rows` rows, and chunk `i` (0-indexed) receives shard label
`batch_{start+i:04d}` with `start` read from the output tree. -/
theorem claim_C4 (d : Bool) (w : List Str) {mr : Nat} (hmr : 0 < mr)
    (k : Str × Str) (rows : List Row) (t : FsTree) :
    (chunksOf mr rows).flatten = rows ∧
      (∀ ch ∈ chunksOf mr rows, ch.length ≤ mr) ∧
      (∀ i, i + 1 < (chunksOf mr rows).length →
        ((chunksOf mr rows).getD i []).length = mr) ∧
      (processGroup d w none mr k rows t).shards.map (fun x => x.1) =
        (List.range (chunksOf mr rows).length).map (fun j =>
          shardName (sanitise k.1) (sanitise k.2)
            (batchLabel (getNextBatchNum (treeGet t (sanKey k)) + j))) ∧
      (processGroup d w none mr k rows t).batches =
        (List.range (chunksOf mr rows).length).map (fun j =>
          (sanKey k, getNextBatchNum (treeGet t (sanKey k)) + j)) := by
  refine ⟨chunksOf_flatten hmr rows, chunksOf_length_le rows, chunksOf_full hmr rows,
    ?_, ?_⟩
  · rw [processGroup_eq, packChunks_shard_names]
    apply List.map_congr_left
    intro j hj
    rw [Nat.zero_add]
    rfl
  · rw [processGroup_eq, packChunks_batches]
    apply List.map_congr_left
    intro j hj
    rw [Nat.add_zero]
    rfl

/-- C4, witness: two rows with `max_rows = 1` split into two full chunks
labelled `batch_0001` and `batch_0002`. -/
theorem claim_C4_witness :
    (chunksOf 1 [⟨str "wavs/a.wav", str "s", str "y"⟩,
        ⟨str "wavs/b.wav", str "s", str "y"⟩]).flatten =
      [⟨str "wavs/a.wav", str "s", str "y"⟩, ⟨str "wavs/b.wav", str "s", str "y"⟩] ∧
    (processGroup false [str "a.wav", str "b.wav"] none 1 (str "y", str "s")
        [⟨str "wavs/a.wav", str "s", str "y"⟩, ⟨str "wavs/b.wav", str "s", str "y"⟩]
        []).batches =
      [((str "y", str "s"), 1), ((str "y", str "s"), 2)] := by
  have h := claim_C4 false [str "a.wav", str "b.wav"] (by decide : 0 < 1)
    (str "y", str "s")
    [⟨str "wavs/a.wav", str "s", str "y"⟩, ⟨str "wavs/b.wav", str "s", str "y"⟩] []
  exact ⟨h.1, by rw [h.2.2.2.2]; decide⟩

/-- The per-row keep tests of `apply_filters`, one per optional argument;
an argument is "given" exactly when it is truthy in Python (present and
nonempty). -/
def speakerKeep (sp : Option Str) (r : Row) : Bool :=
  !optGiven sp || decide (pyLower r.speaker = pyLower (sp.getD []))

def sourceKeep (so : Option Str) (r : Row) : Bool :=
  !optGiven so || decide (pyLower r.audio_source = pyLower (so.getD []))

def batchKeep (ba : Option Str) (r : Row) : Bool :=
  !optGiven ba || strContains ([ '/' ] ++ ba.getD [] ++ [ '/' ]) r.audio_path

/-- Rewriting one conditional filter stage of `apply_filters` as an
unconditional filter whose test is vacuously true when the argument is not
given. -/
theorem condFilter (o : Option Str) (P : Row → Bool) (df : List Row) :
    (if optGiven o = true then df.filter P else df) =
      df.filter (fun r => !optGiven o || P r) := by
  cases h : optGiven o
  · simp
  · simp

/-- C5: `apply_filters` keeps exactly the rows passing the AND of the given
predicates — case-insensitive speaker and source equality, and the batch
label as a `/`-delimited segment of `audio_path`; a row survives two given
filters only if it survives each alone, and `--batch batch_0002` keeps a
`/batch_0002/` row but drops a `/batch_0020/` row. -/
theorem claim_C5 :
    (∀ (sp so ba : Option Str) (df : List Row),
      applyFilters sp so ba df =
        df.filter (fun r => speakerKeep sp r && sourceKeep so r && batchKeep ba r)) ∧
      (∀ (sp so ba : Option Str) (df : List Row) (r : Row),
        r ∈ applyFilters sp so ba df ↔
          (r ∈ df ∧ speakerKeep sp r = true ∧ sourceKeep so r = true ∧
            batchKeep ba r = true)) ∧
      (∀ (sp so : Option Str) (df : List Row) (r : Row),
        r ∈ applyFilters sp so none df → r ∈ applyFilters sp none none df) ∧
      applyFilters none none (some (str "batch_0002"))
          [⟨str "audio/y/s/batch_0002/f.wav", str "s", str "y"⟩,
            ⟨str "audio/y/s/batch_0020/g.wav", str "s", str "y"⟩] =
        [⟨str "audio/y/s/batch_0002/f.wav", str "s", str "y"⟩] := by
  have habc : ∀ a b c : Bool, ((c && b) && a) = ((a && b) && c) := by decide
  have hfilt : ∀ (sp so ba : Option Str) (df : List Row),
      applyFilters sp so ba df =
        df.filter (fun r => speakerKeep sp r && sourceKeep so r && batchKeep ba r) := by
    intro sp so ba df
    unfold applyFilters
    rw [condFilter, condFilter, condFilter, List.filter_filter, List.filter_filter]
    apply List.filter_congr
    intro r _
    exact habc _ _ _
  refine ⟨hfilt, ?_, ?_, by decide⟩
  · intro sp so ba df r
    rw [hfilt, List.mem_filter]
    simp [Bool.and_eq_true, and_assoc]
  · intro sp so df r hr
    rw [hfilt, List.mem_filter] at hr ⊢
    obtain ⟨hdf, hcond⟩ := hr
    simp only [Bool.and_eq_true] at hcond
    refine ⟨hdf, ?_⟩
    simp only [Bool.and_eq_true]
    refine ⟨⟨hcond.1.1, ?_⟩, ?_⟩
    · simp [sourceKeep, optGiven]
    · simp [batchKeep, optGiven]

/-- C6, counterexample: in the unpack direction a row whose wav file is
missing is retained and counted, but its `audio_path` is rewritten to the
flat `wavs/<name>` form, not kept at its partitioned value. -/
theorem claim_C6_counterexample :
    (unpackCore false [] [⟨str "audio/s/p/batch_0001/f.wav", str "p", str "s"⟩]).rows =
        [⟨str "wavs/f.wav", str "p", str "s"⟩] ∧
      str "wavs/f.wav" ≠ str "audio/s/p/batch_0001/f.wav" ∧
      (unpackCore false [] [⟨str "audio/s/p/batch_0001/f.wav", str "p", str "s"⟩]).missing
        = 1 := by decide

/-- C6 (amended): a missing file never aborts a run; the row is retained in
the written metadata and counted in the summary, and it is never copied.  In
the pack direction the missing row keeps its original `audio_path`
unchanged; in the unpack direction every row, missing or not, has its
`audio_path` rewritten to the flat `wavs/<name>` form. -/
theorem claim_C6 :
    (∀ (d : Bool) (w : List Str) (s p lb : Str) (rows : List Row),
      (packChunkCore d w s p lb rows).rows.length = rows.length ∧
        (packChunkCore d w s p lb rows).rows = rows.map (fun r =>
          if pathName r.audio_path ∈ w
          then { r with audio_path := relPath s p lb (pathName r.audio_path) }
          else r) ∧
        (packChunkCore d w s p lb rows).skipped =
          (rows.filter (fun r => decide (¬ pathName r.audio_path ∈ w))).length ∧
        (packChunkCore d w s p lb rows).copies =
          (rows.filter (fun r => decide (pathName r.audio_path ∈ w))).map
            (fun r => (pathName r.audio_path,
              relPath s p lb (pathName r.audio_path)))) ∧
      (∀ (d : Bool) (files : List Str) (rows : List Row),
        (unpackCore d files rows).rows = rows.map flattenRow ∧
          (unpackCore d files rows).missing =
            (rows.filter (fun r => decide (¬ r.audio_path ∈ files))).length ∧
          (unpackCore d files rows).copies =
            (rows.filter (fun r => decide (r.audio_path ∈ files))).map
              (fun r => (r.audio_path, str "wavs/" ++ pathName r.audio_path))) :=
  ⟨fun d w s p lb rows =>
    ⟨packChunkCore_rows_length d w s p lb rows, packChunkCore_rows d w s p lb rows,
      packChunkCore_skipped d w s p lb rows, packChunkCore_copies d w s p lb rows⟩,
    fun d files rows =>
      ⟨unpackCore_rows d files rows, unpackCore_missing d files rows,
        unpackCore_copies d files rows⟩⟩

/-- C9: pack conserves rows — the shard row counts of a run sum to the
input table's row count, missing wav files included. -/
theorem claim_C9 (d : Bool) (w : List Str) (e : Option Str) {mr : Nat}
    (hmr : 0 < mr) (t : FsTree) (df : List Row) :
    ((packRun d w e mr t df).shards.map (fun x => x.2.length)).sum = df.length := by
  unfold packRun
  rw [packGroups_sum_lengths d w e hmr df (groupKeys df) t]
  have hperm := groups_flatten_perm (groupKeys df) df (groupKeys_nodup df)
    (fun r hr => mem_groupKeys.2 (List.mem_map.2 ⟨r, hr, rfl⟩))
  have hlen := hperm.length_eq
  rw [List.length_flatten, List.map_map] at hlen
  rw [← hlen]
  rfl

/-- C9, witness: a two-row table with one missing wav still yields shards
totalling two rows. -/
theorem claim_C9_witness :
    ((packRun false [str "a.wav"] none 5 []
      [⟨str "wavs/a.wav", str "s", str "y"⟩,
        ⟨str "wavs/missing.wav", str "s", str "y"⟩]).shards.map
      (fun x => x.2.length)).sum = 2 :=
  claim_C9 false [str "a.wav"] none (by decide) []
    [⟨str "wavs/a.wav", str "s", str "y"⟩, ⟨str "wavs/missing.wav", str "s", str "y"⟩]

/-- C10: unpack's flat rewrite is `wavs/ ++ basename` for every row,
regardless of the file's existence; any two rows sharing a basename get the
same flat path and destination, so the mapping is not injective. -/
theorem claim_C10 :
    (∀ (d : Bool) (files : List Str) (rows : List Row),
      (unpackCore d files rows).rows = rows.map (fun r =>
        { r with audio_path := str "wavs/" ++ pathName r.audio_path })) ∧
      (∀ r1 r2 : Row, pathName r1.audio_path = pathName r2.audio_path →
        (flattenRow r1).audio_path = (flattenRow r2).audio_path) ∧
      (flattenRow ⟨str "audio/a/s/batch_0001/f.wav", str "s", str "a"⟩).audio_path =
        (flattenRow ⟨str "audio/b/t/batch_0002/f.wav", str "t", str "b"⟩).audio_path := by
  refine ⟨?_, ?_, by decide⟩
  · intro d files rows
    rw [unpackCore_rows]
    rfl
  · intro r1 r2 h
    simp [flattenRow, h]

/-- C10, witness: two distinct partitioned paths with the same basename are
assigned the same flat path. -/
theorem claim_C10_witness :
    (flattenRow ⟨str "audio/q/r/batch_0003/x.wav", str "c", str "d"⟩).audio_path =
      (flattenRow ⟨str "wavs/x.wav", str "a", str "b"⟩).audio_path :=
  claim_C10.2.1 _ _ (by decide)

/-- C5, witness: a row surviving the speaker+source filters survives the
speaker filter alone. -/
theorem claim_C5_witness :
    (⟨str "audio/y/s/batch_0001/a.wav", str "somrat", str "youtube"⟩ : Row) ∈
      applyFilters (some (str "Somrat")) none none
        [⟨str "audio/y/s/batch_0001/a.wav", str "somrat", str "youtube"⟩] :=
  claim_C5.2.2.1 (some (str "Somrat")) (some (str "YouTube"))
    [⟨str "audio/y/s/batch_0001/a.wav", str "somrat", str "youtube"⟩] _ (by decide)

/-- C7: every fatal error of either pipeline fires during pre-flight —
`pack` fails exactly when `metadata.csv` is absent, a required column is
missing, or `wavs/` is not a directory; `unpack` fails exactly when the
`metadata/` directory is absent, no shard exists, or the filters leave no
row — and a run that fails performs no filesystem mutation at all. -/
theorem claim_C7 :
    (∀ (d : Bool) (w : List Str) (e : Option Str) (mr : Nat) (t : FsTree)
        (metaCsv : Option (List Str × List Row)) (wavsOk : Bool),
      ((∃ er, packTop d w e mr t metaCsv wavsOk = .error er) ↔
        (metaCsv = none ∨
          (∃ cols rows, metaCsv = some (cols, rows) ∧
            ¬ (requiredCols.all (fun c => decide (c ∈ cols)) = true)) ∨
          wavsOk = false)) ∧
      (∀ er, packTop d w e mr t metaCsv wavsOk = .error er →
        packTopMuts d w e mr t metaCsv wavsOk = [])) ∧
    (∀ (d : Bool) (files : List Str) (mok : Bool) (shards : List (List Row))
        (sp so ba : Option Str),
      ((∃ er, unpackTop d files mok shards sp so ba = .error er) ↔
        (mok = false ∨ shards = [] ∨ applyFilters sp so ba shards.flatten = [])) ∧
      (∀ er, unpackTop d files mok shards sp so ba = .error er →
        unpackTopMuts d files mok shards sp so ba = [])) := by
  constructor
  · intro d w e mr t metaCsv wavsOk
    constructor
    · rcases metaCsv with _ | ⟨cols, rows⟩
      · simp [packTop, loadMetadata]
      · by_cases hcols : requiredCols.all (fun c => decide (c ∈ cols)) = true
        · have hcols' : ∀ x ∈ requiredCols, x ∈ cols := by
            intro x hx
            have hx2 := List.all_eq_true.1 hcols x hx
            simpa using hx2
          cases wavsOk
          · simp [packTop, loadMetadata, hcols]
            try exact hcols'
          · simp [packTop, loadMetadata, hcols]
            try exact hcols'
        · have hex : ∃ x ∈ requiredCols, x ∉ cols := by
            by_contra hno
            push_neg at hno
            exact hcols (List.all_eq_true.2 (fun x hx => by simpa using hno x hx))
          simp [packTop, loadMetadata, hcols, hex]
    · intro er her
      unfold packTopMuts
      rw [her]
  · intro d files mok shards sp so ba
    constructor
    · cases mok
      · simp [unpackTop]
      · by_cases hsh : shards = []
        · simp [unpackTop, hsh]
        · by_cases hfl : applyFilters sp so ba shards.flatten = []
          · simp [unpackTop, hsh, hfl]
          · simp [unpackTop, hsh, hfl]
    · intro er her
      unfold unpackTopMuts
      rw [her]

/-- C7, witness: a pack invocation without `metadata.csv` fails and mutates
nothing. -/
theorem claim_C7_witness :
    packTopMuts false [] none 5 [] none true = [] :=
  (claim_C7.1 false [] none 5 [] none true).2 Err.configErr rfl

/-- C8, counterexample: two raw groups (`A`, `x`) and (`a`, `x`) sanitize to
the same partition; the real run reads the directory it just created and
labels the second group `batch_0002`, while the dry run, which creates no
directory, labels both `batch_0001` — so dry-run and real-run decisions
diverge. -/
theorem claim_C8_counterexample :
    (packRun true [str "a.wav", str "b.wav"] none 10 []
        [⟨str "wavs/a.wav", str "x", str "A"⟩,
          ⟨str "wavs/b.wav", str "x", str "a"⟩]).shards.map (fun x => x.1) ≠
      (packRun false [str "a.wav", str "b.wav"] none 10 []
        [⟨str "wavs/a.wav", str "x", str "A"⟩,
          ⟨str "wavs/b.wav", str "x", str "a"⟩]).shards.map (fun x => x.1) := by
  decide

/-- C8 (amended): a dry run performs zero filesystem mutations, and — as
long as no two distinct raw groups of the input sanitize to the same
partition directory — it makes exactly the decisions of a real run: the
same shards with the same rows, the same copy pairs and the same batch
numbers; the unpack pipeline's dry run is unconditionally identical in its
selections. -/
theorem claim_C8 (w : List Str) (e : Option Str) (mr : Nat) (t : FsTree)
    (df : List Row)
    (hpw : (groupKeys df).Pairwise (fun a b => sanKey a ≠ sanKey b)) :
    ((packRun true w e mr t df).shards = (packRun false w e mr t df).shards ∧
        (packRun true w e mr t df).copies = (packRun false w e mr t df).copies ∧
        (packRun true w e mr t df).batches = (packRun false w e mr t df).batches) ∧
      (packRun true w e mr t df).tree = t ∧
      (∀ (metaCsv : Option (List Str × List Row)) (wavsOk : Bool),
        packTopMuts true w e mr t metaCsv wavsOk = []) ∧
      (∀ (files : List Str) (mok : Bool) (shards : List (List Row))
          (sp so ba : Option Str),
        (unpackTop true files mok shards sp so ba).map (fun u => (u.rows, u.copies)) =
          (unpackTop false files mok shards sp so ba).map (fun u => (u.rows, u.copies)) ∧
        unpackTopMuts true files mok shards sp so ba = []) := by
  obtain ⟨hs, hc, hb⟩ := packGroups_dry_real w e mr df (groupKeys df) t t hpw
    (fun k hk => rfl)
  refine ⟨⟨hs.symm, hc.symm, hb.symm⟩, ?_, ?_, ?_⟩
  · exact packGroups_tree_dry w e mr df (groupKeys df) t
  · intro metaCsv wavsOk
    unfold packTopMuts
    rcases hp : packTop true w e mr t metaCsv wavsOk with er | res
    · rfl
    · simp
  · intro files mok shards sp so ba
    constructor
    · unfold unpackTop
      cases mok
      · simp
      · by_cases hsh : shards = []
        · simp [hsh]
        · by_cases hfl : applyFilters sp so ba shards.flatten = []
          · simp [hsh, hfl]
          · simp only [if_pos rfl, if_neg hsh, if_neg hfl]
            simp [Except.map, unpackCore_rows, unpackCore_copies]
    · unfold unpackTopMuts
      rcases hu : unpackTop true files mok shards sp so ba with er | res
      · rfl
      · simp

/-- C8, witness: on a collision-free input the dry run's shards equal the
real run's. -/
theorem claim_C8_witness :
    (packRun true [str "a.wav"] none 10 []
        [⟨str "wavs/a.wav", str "x", str "y"⟩]).shards =
      (packRun false [str "a.wav"] none 10 []
        [⟨str "wavs/a.wav", str "x", str "y"⟩]).shards :=
  (claim_C8 [str "a.wav"] none 10 [] [⟨str "wavs/a.wav", str "x", str "y"⟩]
    (by decide)).1.1

theorem packRun_sum_lengths (d : Bool) (w : List Str) (e : Option Str) {mr : Nat}
    (hmr : 0 < mr) (t : FsTree) (df : List Row) :
    ((packRun d w e mr t df).shards.map (fun x => x.2.length)).sum = df.length := by
  unfold packRun
  rw [packGroups_sum_lengths d w e hmr df (groupKeys df) t]
  have hperm := groups_flatten_perm (groupKeys df) df (groupKeys_nodup df)
    (fun r hr => mem_groupKeys.2 (List.mem_map.2 ⟨r, hr, rfl⟩))
  have hlen := hperm.length_eq
  rw [List.length_flatten, List.map_map] at hlen
  rw [← hlen]
  rfl

/-- C1, counterexample: on the empty flat dataset, `pack` writes no shard,
so the subsequent `unpack` aborts (`No .parquet files found`) instead of
yielding a metadata table — the round trip fails at the empty dataset. -/
theorem claim_C1_counterexample :
    unpackTop false [] true
        ((packRun false [] none 10 [] []).shards.map (fun x => x.2)) none none none =
      Except.error Err.configErr := rfl

/-- C1 (amended): for every nonempty flat dataset whose referenced wav files
all exist, packing (no explicit label, positive `max_rows`) and unpacking
with no filters succeeds and yields a table with the same row count whose
rows are, up to the reordering done by grouping, exactly the original rows
with `audio_path` rewritten to `wavs/<original file-name component>`; in
particular the multiset of `(speaker, audio_source)` pairs is unchanged. -/
theorem claim_C1 (w files : List Str) {mr : Nat} (t : FsTree) (df : List Row)
    (hmr : 0 < mr) (hdf : df ≠ [])
    (hex : ∀ r ∈ df, pathName r.audio_path ∈ w) (hw : ([] : Str) ∉ w) :
    ∃ out, unpackTop false files true
        ((packRun false w none mr t df).shards.map (fun x => x.2)) none none none
        = Except.ok out ∧
      out.rows.length = df.length ∧
      List.Perm out.rows (df.map flattenRow) ∧
      List.Perm (out.rows.map (fun r => (r.speaker, r.audio_source)))
        (df.map (fun r => (r.speaker, r.audio_source))) := by
  set shards := (packRun false w none mr t df).shards.map (fun x => x.2) with hshards
  have hsum : (shards.map List.length).sum = df.length := by
    rw [hshards, List.map_map]
    exact packRun_sum_lengths false w none hmr t df
  have hflatlen : shards.flatten.length = df.length := by
    rw [List.length_flatten]
    exact hsum
  have hshne : shards ≠ [] := by
    intro hnil
    rw [hnil] at hflatlen
    exact hdf (List.eq_nil_of_length_eq_zero (by simpa using hflatlen.symm))
  have hflne : shards.flatten ≠ [] := by
    intro hnil
    rw [hnil] at hflatlen
    exact hdf (List.eq_nil_of_length_eq_zero (by simpa using hflatlen.symm))
  have hnofilter : applyFilters none none none shards.flatten = shards.flatten := rfl
  have htop : unpackTop false files true shards none none none =
      Except.ok (unpackCore false files shards.flatten) := by
    unfold unpackTop
    rw [if_pos rfl, if_neg hshne]
    simp only [hnofilter]
    rw [if_neg hflne]
  have hmapflat : shards.flatten.map flattenRow =
      (((groupKeys df).map (fun k =>
        df.filter (fun r => decide (rowKey r = k)))).flatten).map flattenRow := by
    rw [hshards]
    exact packGroups_flatten_map false w none hmr df
      (fun r hr hmem hnil => hw (hnil ▸ hmem)) (groupKeys df) t
  have hperm0 := groups_flatten_perm (groupKeys df) df (groupKeys_nodup df)
    (fun r hr => mem_groupKeys.2 (List.mem_map.2 ⟨r, hr, rfl⟩))
  have hperm : List.Perm (shards.flatten.map flattenRow) (df.map flattenRow) := by
    rw [hmapflat]
    exact hperm0.map flattenRow
  refine ⟨unpackCore false files shards.flatten, htop, ?_, ?_, ?_⟩
  · rw [unpackCore_rows, List.length_map, hflatlen]
  · rw [unpackCore_rows]
    exact hperm
  · rw [unpackCore_rows, List.map_map]
    have h2 := hperm.map (fun r => (r.speaker, r.audio_source))
    rw [List.map_map, List.map_map] at h2
    exact h2

/-- C1, witness: round trip of a concrete two-row dataset. -/
theorem claim_C1_witness :
    ∃ out, unpackTop false [] true
        ((packRun false [str "a.wav", str "b.wav"] none 10 []
          [⟨str "wavs/a.wav", str "s", str "y"⟩,
            ⟨str "wavs/b.wav", str "u", str "y"⟩]).shards.map (fun x => x.2))
        none none none = Except.ok out ∧
      out.rows.length =
        ([⟨str "wavs/a.wav", str "s", str "y"⟩,
          ⟨str "wavs/b.wav", str "u", str "y"⟩] : List Row).length ∧
      List.Perm out.rows
        (([⟨str "wavs/a.wav", str "s", str "y"⟩,
          ⟨str "wavs/b.wav", str "u", str "y"⟩] : List Row).map flattenRow) ∧
      List.Perm (out.rows.map (fun r => (r.speaker, r.audio_source)))
        (([⟨str "wavs/a.wav", str "s", str "y"⟩,
          ⟨str "wavs/b.wav", str "u", str "y"⟩] : List Row).map
          (fun r => (r.speaker, r.audio_source))) :=
  claim_C1 [str "a.wav", str "b.wav"] [] []
    [⟨str "wavs/a.wav", str "s", str "y"⟩, ⟨str "wavs/b.wav", str "u", str "y"⟩]
    (by decide) (by decide) (by decide) (by decide)

/-- C2, counterexample: when a batch's wav files are all missing, its
directory is never created, so a second pack run over the same output root
re-assigns the very same batch number (and shard name) that the first run
already used — batch numbers are reused. -/
theorem claim_C2_counterexample :
    (packRun false [] none 1 [] [⟨str "wavs/a.wav", str "s", str "y"⟩]).batches =
        [((str "y", str "s"), 1)] ∧
      (packRun false [] none 1
        (packRun false [] none 1 [] [⟨str "wavs/a.wav", str "s", str "y"⟩]).tree
        [⟨str "wavs/a.wav", str "s", str "y"⟩]).batches =
        [((str "y", str "s"), 1)] := by decide

/-- C2 (amended): across two consecutive real pack runs against the same
output root (no explicit label, positive `max_rows`, a directory-only
initial tree), provided every wav referenced in each run exists in its
source `wavs/` directory, batch numbers are never reused and never skipped:
every number of the second run is strictly above every number the first run
gave that partition, the second run starts exactly at `N+1` where `N+1` is
`get_next_batch_num`'s scan of the tree the first run left (1 + the maximum
numeric suffix of the `batch_*` directories present), and `N+1` itself is
assigned whenever the partition receives rows in the second run. -/
theorem claim_C2 (w1 w2 : List Str) (mr : Nat) (hmr : 0 < mr) (t0 : FsTree)
    (df1 df2 : List Row) (hg : GoodFsTree t0)
    (hp1 : ∀ r ∈ df1, pathName r.audio_path ∈ w1)
    (hp2 : ∀ r ∈ df2, pathName r.audio_path ∈ w2) :
    (∀ q n m, (q, n) ∈ (packRun false w1 none mr t0 df1).batches →
      (q, m) ∈ (packRun false w2 none mr
        (packRun false w1 none mr t0 df1).tree df2).batches → n < m) ∧
      (∀ q m, (q, m) ∈ (packRun false w2 none mr
          (packRun false w1 none mr t0 df1).tree df2).batches →
        nextNum (packRun false w1 none mr t0 df1).tree q ≤ m) ∧
      (∀ q, (∃ r ∈ df2, sanKey (rowKey r) = q) →
        (q, nextNum (packRun false w1 none mr t0 df1).tree q) ∈
          (packRun false w2 none mr (packRun false w1 none mr t0 df1).tree
            df2).batches) ∧
      (∀ q es, treeGet (packRun false w1 none mr t0 df1).tree q = some es →
        nextNum (packRun false w1 none mr t0 df1).tree q =
          listMax (es.filterMap entryContrib) + 1) := by
  obtain ⟨hg1, hn1, hb1⟩ := packGroups_invar w1 mr df1 hmr hp1 (groupKeys df1) t0 hg
    (fun k hk => group_of_mem_groupKeys hk)
  have hrw1 : packRun false w1 none mr t0 df1 =
      packGroups false w1 none mr df1 (groupKeys df1) t0 := rfl
  obtain ⟨hg2, hn2, hb2⟩ := packGroups_invar w2 mr df2 hmr hp2 (groupKeys df2)
    (packGroups false w1 none mr df1 (groupKeys df1) t0).tree hg1
    (fun k hk => group_of_mem_groupKeys hk)
  have hrw2 : packRun false w2 none mr (packRun false w1 none mr t0 df1).tree df2 =
      packGroups false w2 none mr df2 (groupKeys df2)
        (packGroups false w1 none mr df1 (groupKeys df1) t0).tree := rfl
  refine ⟨?_, ?_, ?_, ?_⟩
  · intro q n m h1 h2
    rw [hrw1] at h1
    rw [hrw2] at h2
    have hin1 := (hb1 q n).1 h1
    have hin2 := (hb2 q m).1 h2
    have := hn1 q
    omega
  · intro q m h2
    rw [hrw2] at h2
    have hin2 := (hb2 q m).1 h2
    rw [hrw1]
    exact hin2.1
  · intro q hex
    obtain ⟨r, hr, hsan⟩ := hex
    have hkmem : rowKey r ∈ groupKeys df2 :=
      mem_groupKeys.2 (List.mem_map.2 ⟨r, hr, rfl⟩)
    have hpos : 0 < totalChunks mr df2 q (groupKeys df2) :=
      totalChunks_pos (groupKeys df2) hkmem hsan (group_of_mem_groupKeys hkmem)
    rw [hrw2, hrw1]
    exact (hb2 q _).2 ⟨le_refl _, by omega⟩
  · intro q es hes
    rw [hrw1] at hes ⊢
    unfold nextNum
    rw [hes, getNextBatchNum_some]

/-- C2, witness: two rows packed with `max_rows = 1` give batches 1 and 2;
a second run over one more row of the same group starts at batch 3. -/
theorem claim_C2_witness :
    ((str "y", str "s"),
        nextNum (packRun false [str "a.wav", str "b.wav"] none 1 []
          [⟨str "wavs/a.wav", str "s", str "y"⟩,
            ⟨str "wavs/b.wav", str "s", str "y"⟩]).tree (str "y", str "s")) ∈
      (packRun false [str "c.wav"] none 1
        (packRun false [str "a.wav", str "b.wav"] none 1 []
          [⟨str "wavs/a.wav", str "s", str "y"⟩,
            ⟨str "wavs/b.wav", str "s", str "y"⟩]).tree
        [⟨str "wavs/c.wav", str "s", str "y"⟩]).batches :=
  (claim_C2 [str "a.wav", str "b.wav"] [str "c.wav"] 1 (by decide) []
    [⟨str "wavs/a.wav", str "s", str "y"⟩, ⟨str "wavs/b.wav", str "s", str "y"⟩]
    [⟨str "wavs/c.wav", str "s", str "y"⟩] goodFsTree_nil (by decide)
    (by decide)).2.2.1 (str "y", str "s")
    ⟨⟨str "wavs/c.wav", str "s", str "y"⟩, by decide, by decide⟩
